import Mathlib

/-!
# Verification of the povo promo-code core logic

Shallow embedding of the pure temporal-logic core of the application:

* the status engine (`determineCodeStatus` and its helpers),
* the coverage calculator (`calculateCoverage` and its interval merge loop),
* the next-candidate selector (`getNextCandidate`),
* the notification scheduler (state, scheduling passes, firing, reschedule).

Modelling conventions:

* ISO-8601 timestamp strings of the source are modelled as their epoch value
  in milliseconds (`Int`); the source always compares timestamps through
  `new Date(s).getTime()`, so this is the value the code actually computes with.
* JavaScript `Array.prototype.sort` (stable, comparison based) is modelled by
  the stable `List.insertionSort`; for a comparator that is a total preorder
  both produce the same (unique stable sorted) list.
* `localeCompare` on the opaque record ids (UUID strings) is modelled by the
  codepoint order on `String`.
* The scheduler's `Map` keyed by notification-id strings is modelled by an
  association list whose insert is guarded by the same `has` check the source
  performs; the fired `Set` is a list queried through `contains`.
-/

namespace Povo

/-- Lifecycle states of a promo code (source: `CodeStatus`). -/
inductive CodeStatus where
  | unused
  | active
  | consumed
  | expired
deriving DecidableEq, Repr

/-- A promo-code record (source: `PromoCode`).  Timestamps are epoch
milliseconds; `startedAt`/`expiresAt` are nullable in the source and are
modelled with `Option`. -/
structure PromoCode where
  id : String
  order : Nat
  code : String
  inputDeadline : Int
  validityDurationMinutes : Nat
  startedAt : Option Int
  expiresAt : Option Int
deriving DecidableEq, Repr

/-- Source: `determineCodeStatus` in `code-status.ts`.  Branches on
`startedAt !== null && expiresAt !== null`; inside the activated branch it
compares `now` with `expiresAt`, otherwise with `inputDeadline`, both with
an inclusive boundary. -/
def determineCodeStatus (code : PromoCode) (now : Int) : CodeStatus :=
  match code.startedAt, code.expiresAt with
  | some _, some expiresAtTime =>
      if now ≤ expiresAtTime then .active else .consumed
  | _, _ =>
      if now ≤ code.inputDeadline then .unused else .expired

/-- Source: `PromoCodeWithStatus` — the record with its derived status
attached via object spread. -/
structure PromoCodeWithStatus extends PromoCode where
  status : CodeStatus
deriving DecidableEq, Repr

/-- Source: `attachStatus`. -/
def attachStatus (code : PromoCode) (now : Int) : PromoCodeWithStatus :=
  { code with status := determineCodeStatus code now }

/-- Source: `attachStatusToAll`. -/
def attachStatusToAll (codes : List PromoCode) (now : Int) : List PromoCodeWithStatus :=
  codes.map (fun code => attachStatus code now)

/-- Source: `filterByStatus`. -/
def filterByStatus (codes : List PromoCode) (status : CodeStatus) (now : Int) :
    List PromoCodeWithStatus :=
  (attachStatusToAll codes now).filter (fun code => code.status = status)

/-- Source: `getActiveCodes`. -/
def getActiveCodes (codes : List PromoCode) (now : Int) : List PromoCodeWithStatus :=
  filterByStatus codes .active now

/-- Source: `getUnusedCodes`. -/
def getUnusedCodes (codes : List PromoCode) (now : Int) : List PromoCodeWithStatus :=
  filterByStatus codes .unused now

/-- The data-model invariant: `startedAt` and `expiresAt` are both null or
both non-null together. -/
def NullPairing (code : PromoCode) : Prop :=
  code.startedAt.isSome = code.expiresAt.isSome

instance (code : PromoCode) : Decidable (NullPairing code) := by
  unfold NullPairing; infer_instance

end Povo

namespace Povo

/-- A time interval in epoch milliseconds (source: `TimeInterval`).  The
source's `end` field is a reserved word in Lean and is called `stop` here. -/
structure TimeInterval where
  start : Int
  stop : Int
deriving DecidableEq, Repr

/-- Source: `extractIntervals` — active codes, filtered to non-null
`startedAt`/`expiresAt`, mapped to their interval.  The source's
filter-then-assert-non-null-map is one `filterMap` here. -/
def extractIntervals (codes : List PromoCode) (now : Int) : List TimeInterval :=
  (getActiveCodes codes now).filterMap (fun c =>
    match c.startedAt, c.expiresAt with
    | some s, some e => some ⟨s, e⟩
    | _, _ => none)

/-- Source: `sortIntervalsByStart` — JavaScript's stable comparison sort
with comparator `a.start - b.start`.  For a comparator that is a total
preorder, every stable sort returns the same list; it is realised here by
the (stable) insertion sort. -/
def sortIntervalsByStart (intervals : List TimeInterval) : List TimeInterval :=
  intervals.insertionSort (fun a b => a.start ≤ b.start)

/-- Source: `getIntervalsContainingNow`. -/
def getIntervalsContainingNow (intervals : List TimeInterval) (now : Int) :
    List TimeInterval :=
  intervals.filter (fun iv => decide (iv.start ≤ now) && decide (now ≤ iv.stop))

/-- One full pass of the `for (const interval of intervals)` loop inside the
source's `calculateCoverageEnd`.  The source marks used intervals in a `Set`
of object references; since each array position is its own reference, the
used-set is modelled positionally by pairing every interval with a `Bool`.
Returns the updated list, the updated `coverageEnd` and the `extended` flag. -/
def coverageScan : List (TimeInterval × Bool) → Int → Bool →
    List (TimeInterval × Bool) × Int × Bool
  | [], ce, ext => ([], ce, ext)
  | (iv, true) :: rest, ce, ext =>
      let r := coverageScan rest ce ext
      ((iv, true) :: r.1, r.2)
  | (iv, false) :: rest, ce, ext =>
    if iv.start ≤ ce then
      if ce < iv.stop then
        let r := coverageScan rest iv.stop true
        ((iv, true) :: r.1, r.2)
      else
        let r := coverageScan rest ce ext
        ((iv, true) :: r.1, r.2)
    else
      let r := coverageScan rest ce ext
      ((iv, false) :: r.1, r.2)

/-- Number of not-yet-absorbed intervals; the termination measure of the
source's `while (extended)` loop. -/
def countUnused (l : List (TimeInterval × Bool)) : Nat :=
  (l.filter (fun p => !p.2)).length

theorem countUnused_cons_true (iv : TimeInterval) (l : List (TimeInterval × Bool)) :
    countUnused ((iv, true) :: l) = countUnused l := by
  simp [countUnused]

theorem countUnused_cons_false (iv : TimeInterval) (l : List (TimeInterval × Bool)) :
    countUnused ((iv, false) :: l) = countUnused l + 1 := by
  simp [countUnused]

theorem coverageScan_unused_le (l : List (TimeInterval × Bool)) (ce : Int) (ext : Bool) :
    countUnused (coverageScan l ce ext).1 ≤ countUnused l := by
  induction l generalizing ce ext with
  | nil => simp [coverageScan]
  | cons hd tl ih =>
    obtain ⟨iv, used⟩ := hd
    cases used with
    | true =>
      have := ih ce ext
      simp only [coverageScan, countUnused_cons_true, countUnused_cons_false]
      omega
    | false =>
      by_cases h1 : iv.start ≤ ce
      · by_cases h2 : ce < iv.stop
        · have := ih iv.stop true
          simp only [coverageScan, if_pos h1, if_pos h2, countUnused_cons_true, countUnused_cons_false]
          omega
        · have := ih ce ext
          simp only [coverageScan, if_pos h1, if_neg h2, countUnused_cons_true, countUnused_cons_false]
          omega
      · have := ih ce ext
        simp only [coverageScan, if_neg h1, countUnused_cons_true, countUnused_cons_false]
        omega

theorem coverageScan_progress (l : List (TimeInterval × Bool)) (ce : Int)
    (h : (coverageScan l ce false).2.2 = true) :
    countUnused (coverageScan l ce false).1 < countUnused l := by
  induction l generalizing ce with
  | nil => simp [coverageScan] at h
  | cons hd tl ih =>
    obtain ⟨iv, used⟩ := hd
    cases used with
    | true =>
      simp only [coverageScan] at h ⊢
      have := ih ce h
      simp only [countUnused_cons_true, countUnused_cons_false]
      omega
    | false =>
      by_cases h1 : iv.start ≤ ce
      · by_cases h2 : ce < iv.stop
        · have := coverageScan_unused_le tl iv.stop true
          simp only [coverageScan, if_pos h1, if_pos h2, countUnused_cons_true, countUnused_cons_false]
          omega
        · have := coverageScan_unused_le tl ce false
          simp only [coverageScan, if_pos h1, if_neg h2, countUnused_cons_true, countUnused_cons_false]
          omega
      · simp only [coverageScan, if_neg h1] at h ⊢
        have := ih ce h
        simp only [countUnused_cons_true, countUnused_cons_false]
        omega

theorem coverageScan_fst (l : List (TimeInterval × Bool)) (ce : Int) (ext : Bool) :
    (coverageScan l ce ext).1.map Prod.fst = l.map Prod.fst := by
  induction l generalizing ce ext with
  | nil => simp [coverageScan]
  | cons hd tl ih =>
    obtain ⟨iv, used⟩ := hd
    cases used with
    | true => simp [coverageScan, ih]
    | false =>
      by_cases h1 : iv.start ≤ ce
      · by_cases h2 : ce < iv.stop
        · simp [coverageScan, if_pos h1, if_pos h2, ih]
        · simp [coverageScan, if_pos h1, if_neg h2, ih]
      · simp [coverageScan, if_neg h1, ih]

theorem coverageScan_ce_mono (l : List (TimeInterval × Bool)) (ce : Int) (ext : Bool) :
    ce ≤ (coverageScan l ce ext).2.1 := by
  induction l generalizing ce ext with
  | nil => simp [coverageScan]
  | cons hd tl ih =>
    obtain ⟨iv, used⟩ := hd
    cases used with
    | true => simpa [coverageScan] using ih ce ext
    | false =>
      by_cases h1 : iv.start ≤ ce
      · by_cases h2 : ce < iv.stop
        · have := ih iv.stop true
          simp only [coverageScan, if_pos h1, if_pos h2]
          omega
        · simpa [coverageScan, if_pos h1, if_neg h2] using ih ce ext
      · simpa [coverageScan, if_neg h1] using ih ce ext

theorem coverageScan_ext_mono (l : List (TimeInterval × Bool)) (ce : Int) :
    (coverageScan l ce true).2.2 = true := by
  induction l generalizing ce with
  | nil => simp [coverageScan]
  | cons hd tl ih =>
    obtain ⟨iv, used⟩ := hd
    cases used with
    | true => simpa [coverageScan] using ih ce
    | false =>
      by_cases h1 : iv.start ≤ ce
      · by_cases h2 : ce < iv.stop
        · simpa [coverageScan, if_pos h1, if_pos h2] using ih iv.stop
        · simpa [coverageScan, if_pos h1, if_neg h2] using ih ce
      · simpa [coverageScan, if_neg h1] using ih ce

/-- When a full scan reports no extension, the coverage end is unchanged and
every interval left unabsorbed starts strictly after it. -/
theorem coverageScan_fixpoint (l : List (TimeInterval × Bool)) (ce : Int) (ext : Bool)
    (h : (coverageScan l ce ext).2.2 = false) :
    (coverageScan l ce ext).2.1 = ce ∧
      ∀ p ∈ (coverageScan l ce ext).1, p.2 = false → ce < p.1.start := by
  induction l generalizing ce ext with
  | nil => simp [coverageScan]
  | cons hd tl ih =>
    obtain ⟨iv, used⟩ := hd
    cases used with
    | true =>
      simp only [coverageScan] at h ⊢
      obtain ⟨h1, h2⟩ := ih ce ext h
      refine ⟨h1, ?_⟩
      intro p hp hpu
      rcases List.mem_cons.mp hp with hp | hp
      · subst hp; simp at hpu
      · exact h2 p hp hpu
    | false =>
      by_cases h1 : iv.start ≤ ce
      · by_cases h2 : ce < iv.stop
        · exfalso
          simp only [coverageScan, if_pos h1, if_pos h2] at h
          rw [coverageScan_ext_mono] at h
          exact Bool.true_eq_false.mp h
        · simp only [coverageScan, if_pos h1, if_neg h2] at h ⊢
          obtain ⟨ha, hb⟩ := ih ce ext h
          refine ⟨ha, ?_⟩
          intro p hp hpu
          rcases List.mem_cons.mp hp with hp | hp
          · subst hp; simp at hpu
          · exact hb p hp hpu
      · simp only [coverageScan, if_neg h1] at h ⊢
        obtain ⟨ha, hb⟩ := ih ce ext h
        refine ⟨ha, ?_⟩
        intro p hp hpu
        rcases List.mem_cons.mp hp with hp | hp
        · subst hp
          simpa using lt_of_not_le h1
        · exact hb p hp hpu

/-- Every absorbed interval lies entirely at or before the coverage end, and
scanning preserves this. -/
theorem coverageScan_used_inv (l : List (TimeInterval × Bool)) (ce : Int) (ext : Bool)
    (h : ∀ p ∈ l, p.2 = true → p.1.start ≤ ce ∧ p.1.stop ≤ ce) :
    ∀ p ∈ (coverageScan l ce ext).1, p.2 = true →
      p.1.start ≤ (coverageScan l ce ext).2.1 ∧ p.1.stop ≤ (coverageScan l ce ext).2.1 := by
  induction l generalizing ce ext with
  | nil => simp [coverageScan]
  | cons hd tl ih =>
    obtain ⟨iv, used⟩ := hd
    have hmono := coverageScan_ce_mono
    cases used with
    | true =>
      simp only [coverageScan]
      intro p hp hpu
      rcases List.mem_cons.mp hp with hp | hp
      · subst hp
        have := h (iv, true) (List.mem_cons_self _ _) rfl
        have := hmono tl ce ext
        constructor <;> omega
      · exact ih ce ext (fun q hq hqu => h q (List.mem_cons_of_mem _ hq) hqu) p hp hpu
    | false =>
      by_cases h1 : iv.start ≤ ce
      · by_cases h2 : ce < iv.stop
        · simp only [coverageScan, if_pos h1, if_pos h2]
          intro p hp hpu
          rcases List.mem_cons.mp hp with hp | hp
          · subst hp
            have := hmono tl iv.stop true
            constructor <;> simp <;> omega
          · refine ih iv.stop true ?_ p hp hpu
            intro q hq hqu
            have := h q (List.mem_cons_of_mem _ hq) hqu
            omega
        · simp only [coverageScan, if_pos h1, if_neg h2]
          intro p hp hpu
          rcases List.mem_cons.mp hp with hp | hp
          · subst hp
            have := hmono tl ce ext
            constructor <;> simp <;> omega
          · exact ih ce ext (fun q hq hqu => h q (List.mem_cons_of_mem _ hq) hqu) p hp hpu
      · simp only [coverageScan, if_neg h1]
        intro p hp hpu
        rcases List.mem_cons.mp hp with hp | hp
        · subst hp; simp at hpu
        · exact ih ce ext (fun q hq hqu => h q (List.mem_cons_of_mem _ hq) hqu) p hp hpu

/-- `Reaches ivs now e` captures the chains the merge loop can build: `e` is
the end of an interval containing `now`, or the end of an interval whose
start lies at or before an already reachable point. -/
inductive Reaches (ivs : List TimeInterval) (now : Int) : Int → Prop where
  | base (iv : TimeInterval) : iv ∈ ivs → iv.start ≤ now → now ≤ iv.stop →
      Reaches ivs now iv.stop
  | step (e : Int) (iv : TimeInterval) : Reaches ivs now e → iv ∈ ivs → iv.start ≤ e →
      Reaches ivs now iv.stop

theorem Reaches.mono {ivs ivs' : List TimeInterval} {now e : Int}
    (hsub : ∀ iv ∈ ivs, iv ∈ ivs') (h : Reaches ivs now e) : Reaches ivs' now e := by
  induction h with
  | base iv hm hs he => exact .base iv (hsub iv hm) hs he
  | step e iv _ hm hs ih => exact .step e iv ih (hsub iv hm) hs

theorem coverageScan_reaches (l : List (TimeInterval × Bool)) (ce : Int) (ext : Bool)
    (ivs : List TimeInterval) (now : Int)
    (hce : Reaches ivs now ce) (hmem : ∀ p ∈ l, p.1 ∈ ivs) :
    Reaches ivs now (coverageScan l ce ext).2.1 := by
  induction l generalizing ce ext with
  | nil => simpa [coverageScan]
  | cons hd tl ih =>
    obtain ⟨iv, used⟩ := hd
    have hmem' : ∀ p ∈ tl, p.1 ∈ ivs := fun p hp => hmem p (List.mem_cons_of_mem _ hp)
    cases used with
    | true =>
      simpa [coverageScan] using ih ce ext hce hmem'
    | false =>
      by_cases h1 : iv.start ≤ ce
      · by_cases h2 : ce < iv.stop
        · simp only [coverageScan, if_pos h1, if_pos h2]
          exact ih iv.stop true (.step ce iv hce (hmem (iv, false) (List.mem_cons_self _ _)) h1) hmem'
        · simpa [coverageScan, if_pos h1, if_neg h2] using ih ce ext hce hmem'
      · simpa [coverageScan, if_neg h1] using ih ce ext hce hmem'

/-- Fuel-indexed version of the source's `while (extended)` loop: repeat
full scans until a scan produces no extension.  The fuel only serves to make
the recursion structural; `coverageLoop` supplies fuel that provably
suffices to reach the fixed point, because every extending scan absorbs at
least one interval (`coverageScan_progress`). -/
def coverageLoopFuel : Nat → List (TimeInterval × Bool) → Int →
    List (TimeInterval × Bool) × Int
  | 0, l, ce => (l, ce)
  | fuel + 1, l, ce =>
    if (coverageScan l ce false).2.2 = true then
      coverageLoopFuel fuel (coverageScan l ce false).1 (coverageScan l ce false).2.1
    else ((coverageScan l ce false).1, (coverageScan l ce false).2.1)

/-- The source's `while (extended)` loop, with enough fuel to reach the
fixed point (`coverageLoop_fixpoint` proves it is reached). -/
def coverageLoop (l : List (TimeInterval × Bool)) (ce : Int) :
    List (TimeInterval × Bool) × Int :=
  coverageLoopFuel (countUnused l + 1) l ce

theorem coverageLoopFuel_fst (fuel : Nat) :
    ∀ l ce, (coverageLoopFuel fuel l ce).1.map Prod.fst = l.map Prod.fst := by
  induction fuel with
  | zero => intro l ce; rfl
  | succ fuel ih =>
    intro l ce
    unfold coverageLoopFuel
    by_cases h : (coverageScan l ce false).2.2 = true
    · rw [if_pos h, ih, coverageScan_fst]
    · rw [if_neg h, coverageScan_fst]

theorem coverageLoop_fst (l : List (TimeInterval × Bool)) (ce : Int) :
    (coverageLoop l ce).1.map Prod.fst = l.map Prod.fst :=
  coverageLoopFuel_fst _ l ce

theorem coverageLoopFuel_ce_mono (fuel : Nat) :
    ∀ l ce, ce ≤ (coverageLoopFuel fuel l ce).2 := by
  induction fuel with
  | zero => intro l ce; exact le_refl ce
  | succ fuel ih =>
    intro l ce
    unfold coverageLoopFuel
    by_cases h : (coverageScan l ce false).2.2 = true
    · rw [if_pos h]
      exact le_trans (coverageScan_ce_mono l ce false) (ih _ _)
    · rw [if_neg h]
      exact coverageScan_ce_mono l ce false

theorem coverageLoop_ce_mono (l : List (TimeInterval × Bool)) (ce : Int) :
    ce ≤ (coverageLoop l ce).2 :=
  coverageLoopFuel_ce_mono _ l ce

theorem coverageLoopFuel_fixpoint (fuel : Nat) :
    ∀ l ce, countUnused l < fuel →
      ∀ p ∈ (coverageLoopFuel fuel l ce).1, p.2 = false →
        (coverageLoopFuel fuel l ce).2 < p.1.start := by
  induction fuel with
  | zero => intro l ce hfuel; omega
  | succ fuel ih =>
    intro l ce hfuel
    unfold coverageLoopFuel
    by_cases h : (coverageScan l ce false).2.2 = true
    · rw [if_pos h]
      refine ih _ _ ?_
      have := coverageScan_progress l ce h
      omega
    · rw [if_neg h]
      intro p hp hpu
      have hfix := coverageScan_fixpoint l ce false (by simpa using h)
      have := hfix.2 p hp hpu
      omega

/-- At the loop's fixed point, every unabsorbed interval starts strictly
after the final coverage end. -/
theorem coverageLoop_fixpoint (l : List (TimeInterval × Bool)) (ce : Int) :
    ∀ p ∈ (coverageLoop l ce).1, p.2 = false → (coverageLoop l ce).2 < p.1.start :=
  coverageLoopFuel_fixpoint _ l ce (Nat.lt_succ_self _)

theorem coverageLoopFuel_used_inv (fuel : Nat) :
    ∀ l ce, (∀ p ∈ l, p.2 = true → p.1.start ≤ ce ∧ p.1.stop ≤ ce) →
      ∀ p ∈ (coverageLoopFuel fuel l ce).1, p.2 = true →
        p.1.start ≤ (coverageLoopFuel fuel l ce).2 ∧
          p.1.stop ≤ (coverageLoopFuel fuel l ce).2 := by
  induction fuel with
  | zero => intro l ce h; exact h
  | succ fuel ih =>
    intro l ce h
    unfold coverageLoopFuel
    by_cases hext : (coverageScan l ce false).2.2 = true
    · rw [if_pos hext]
      exact ih _ _ (coverageScan_used_inv l ce false h)
    · rw [if_neg hext]
      exact coverageScan_used_inv l ce false h

theorem coverageLoop_used_inv (l : List (TimeInterval × Bool)) (ce : Int)
    (h : ∀ p ∈ l, p.2 = true → p.1.start ≤ ce ∧ p.1.stop ≤ ce) :
    ∀ p ∈ (coverageLoop l ce).1, p.2 = true →
      p.1.start ≤ (coverageLoop l ce).2 ∧ p.1.stop ≤ (coverageLoop l ce).2 :=
  coverageLoopFuel_used_inv _ l ce h

theorem coverageLoopFuel_reaches (fuel : Nat) :
    ∀ l ce (ivs : List TimeInterval) (now : Int), Reaches ivs now ce →
      (∀ p ∈ l, p.1 ∈ ivs) → Reaches ivs now (coverageLoopFuel fuel l ce).2 := by
  induction fuel with
  | zero => intro l ce ivs now hce hmem; exact hce
  | succ fuel ih =>
    intro l ce ivs now hce hmem
    unfold coverageLoopFuel
    by_cases hext : (coverageScan l ce false).2.2 = true
    · rw [if_pos hext]
      refine ih _ _ ivs now (coverageScan_reaches l ce false ivs now hce hmem) ?_
      intro p hp
      have : p.1 ∈ (coverageScan l ce false).1.map Prod.fst := List.mem_map_of_mem _ hp
      rw [coverageScan_fst] at this
      obtain ⟨q, hq, hq1⟩ := List.mem_map.mp this
      exact hq1 ▸ hmem q hq
    · rw [if_neg hext]
      exact coverageScan_reaches l ce false ivs now hce hmem

theorem coverageLoop_reaches (l : List (TimeInterval × Bool)) (ce : Int)
    (ivs : List TimeInterval) (now : Int)
    (hce : Reaches ivs now ce) (hmem : ∀ p ∈ l, p.1 ∈ ivs) :
    Reaches ivs now (coverageLoop l ce).2 :=
  coverageLoopFuel_reaches _ l ce ivs now hce hmem

/-- Source: `calculateCoverageEnd` — seed `coverageEnd` with the maximal end
of the intervals containing `now`, run the merge loop to its fixed point and
report a gap when some unabsorbed interval starts strictly later.  Returns
`(coverageEnd?, gapStart?)`. -/
def calculateCoverageEnd (intervals : List TimeInterval) (now : Int) :
    Option Int × Option Int :=
  match getIntervalsContainingNow intervals now with
  | [] => (none, none)
  | c :: cs =>
    let ce0 := (cs.map TimeInterval.stop).foldl max c.stop
    let init := intervals.map
      (fun iv => (iv, decide (iv.start ≤ now) && decide (now ≤ iv.stop)))
    let r := coverageLoop init ce0
    let future := r.1.filter (fun p => !p.2 && decide (r.2 < p.1.start))
    (some r.2, if future.isEmpty then none else some r.2)

theorem foldl_max_le (a : Int) (l : List Int) :
    a ≤ l.foldl max a ∧ ∀ x ∈ l, x ≤ l.foldl max a := by
  induction l generalizing a with
  | nil => simp
  | cons hd tl ih =>
    obtain ⟨h1, h2⟩ := ih (max a hd)
    simp only [List.foldl_cons]
    refine ⟨le_trans (le_max_left a hd) h1, ?_⟩
    intro x hx
    rcases List.mem_cons.mp hx with rfl | hx
    · exact le_trans (le_max_right a x) h1
    · exact h2 x hx

theorem foldl_max_mem (a : Int) (l : List Int) :
    l.foldl max a = a ∨ l.foldl max a ∈ l := by
  induction l generalizing a with
  | nil => left; rfl
  | cons hd tl ih =>
    simp only [List.foldl_cons]
    rcases ih (max a hd) with h | h
    · rcases max_choice a hd with hc | hc
      · left; rw [h, hc]
      · right; rw [h, hc]; exact List.mem_cons_self _ _
    · right; exact List.mem_cons_of_mem _ h

/-- Full characterisation of the source's `calculateCoverageEnd` when some
interval contains `now`: the coverage end is at or after `now`, every
interval touching or overlapping the final window is wholly absorbed by it,
a gap is reported exactly when some interval starts strictly later, the
reported gap start is the coverage end itself, and the coverage end is the
greatest point reachable by chaining intervals from `now`. -/
theorem calculateCoverageEnd_spec (intervals : List TimeInterval) (now : Int)
    (ce : Int) (g : Option Int)
    (h : calculateCoverageEnd intervals now = (some ce, g)) :
    now ≤ ce ∧
    (∀ iv ∈ intervals, iv.start ≤ ce → iv.stop ≤ ce) ∧
    ((∃ iv ∈ intervals, ce < iv.start) ↔ g = some ce) ∧
    (g = none ∨ g = some ce) ∧
    Reaches intervals now ce ∧
    (∀ e, Reaches intervals now e → e ≤ ce) := by
  unfold calculateCoverageEnd at h
  cases hc : getIntervalsContainingNow intervals now with
  | nil => rw [hc] at h; simp at h
  | cons c cs =>
    rw [hc] at h
    simp only [Prod.mk.injEq, Option.some.injEq] at h
    obtain ⟨hce, hg⟩ := h
    -- abbreviations for the loop input and output
    set ce0 := (cs.map TimeInterval.stop).foldl max c.stop with hce0
    set init := intervals.map
      (fun iv => (iv, decide (iv.start ≤ now) && decide (now ≤ iv.stop))) with hinit
    set r := coverageLoop init ce0 with hrdef
    -- membership in the containing list
    have hcontain : ∀ x, x ∈ c :: cs ↔
        (x ∈ intervals ∧ x.start ≤ now ∧ now ≤ x.stop) := by
      intro x
      rw [← hc]
      unfold getIntervalsContainingNow
      simp [List.mem_filter]
    have hcmem : c ∈ intervals ∧ c.start ≤ now ∧ now ≤ c.stop :=
      (hcontain c).mp (List.mem_cons_self _ _)
    -- seed facts
    have hseed_ub : ∀ x ∈ c :: cs, x.stop ≤ ce0 := by
      intro x hx
      rcases List.mem_cons.mp hx with rfl | hx
      · exact (foldl_max_le x.stop (cs.map TimeInterval.stop)).1
      · exact (foldl_max_le c.stop (cs.map TimeInterval.stop)).2 x.stop
          (List.mem_map_of_mem _ hx)
    have hnow_ce0 : now ≤ ce0 :=
      le_trans hcmem.2.2 (hseed_ub c (List.mem_cons_self _ _))
    -- facts about the marked initial list
    have hinit_fst : init.map Prod.fst = intervals := by
      rw [hinit, List.map_map]
      exact List.map_id'' (fun x => rfl) intervals
    have hinit_mem : ∀ p ∈ init,
        p.1 ∈ intervals ∧ (p.2 = true ↔ (p.1.start ≤ now ∧ now ≤ p.1.stop)) := by
      intro p hp
      rw [hinit] at hp
      obtain ⟨iv, hiv, rfl⟩ := List.mem_map.mp hp
      refine ⟨hiv, ?_⟩
      simp
    have hinit_used : ∀ p ∈ init, p.2 = true → p.1.start ≤ ce0 ∧ p.1.stop ≤ ce0 := by
      intro p hp hpu
      obtain ⟨hmem, hiff⟩ := hinit_mem p hp
      obtain ⟨hs, he⟩ := hiff.mp hpu
      have : p.1 ∈ c :: cs := (hcontain p.1).mpr ⟨hmem, hs, he⟩
      exact ⟨le_trans hs hnow_ce0, hseed_ub _ this⟩
    -- transport through the loop
    have hr_fst : r.1.map Prod.fst = intervals := by
      rw [hrdef, coverageLoop_fst, hinit_fst]
    have hr_mono : ce0 ≤ r.2 := coverageLoop_ce_mono init ce0
    have hr_fix : ∀ p ∈ r.1, p.2 = false → r.2 < p.1.start :=
      coverageLoop_fixpoint init ce0
    have hr_used : ∀ p ∈ r.1, p.2 = true → p.1.start ≤ r.2 ∧ p.1.stop ≤ r.2 :=
      coverageLoop_used_inv init ce0 hinit_used
    have hentry : ∀ iv ∈ intervals, ∃ p ∈ r.1, p.1 = iv := by
      intro iv hiv
      rw [← hr_fst] at hiv
      obtain ⟨p, hp, hp1⟩ := List.mem_map.mp hiv
      exact ⟨p, hp, hp1⟩
    have hnow_ce : now ≤ r.2 := le_trans hnow_ce0 hr_mono
    -- absorbed intervals lie within the window
    have habsorb : ∀ iv ∈ intervals, iv.start ≤ r.2 → iv.stop ≤ r.2 := by
      intro iv hiv hs
      obtain ⟨p, hp, rfl⟩ := hentry iv hiv
      cases hpu : p.2 with
      | false => exact absurd hs (not_le_of_lt (hr_fix p hp hpu))
      | true => exact (hr_used p hp hpu).2
    -- gap characterisation
    have hfuture : (∃ iv ∈ intervals, r.2 < iv.start) ↔
        (r.1.filter (fun p => !p.2 && decide (r.2 < p.1.start))).isEmpty = false := by
      constructor
      · intro ⟨iv, hiv, hlt⟩
        obtain ⟨p, hp, rfl⟩ := hentry iv hiv
        have hpu : p.2 = false := by
          cases hpu : p.2 with
          | false => rfl
          | true => exact absurd (hr_used p hp hpu).1 (not_le_of_lt hlt)
        have : p ∈ r.1.filter (fun p => !p.2 && decide (r.2 < p.1.start)) :=
          List.mem_filter.mpr ⟨hp, by simp [hpu, hlt]⟩
        cases hf : r.1.filter (fun p => !p.2 && decide (r.2 < p.1.start)) with
        | nil => rw [hf] at this; simp at this
        | cons a as => simp [hf]
      · intro hne
        have : r.1.filter (fun p => !p.2 && decide (r.2 < p.1.start)) ≠ [] := by
          intro hnil
          rw [hnil] at hne
          simp at hne
        obtain ⟨p, hp⟩ := List.exists_mem_of_ne_nil _ this
        have hpf := List.mem_filter.mp hp
        have hlt : r.2 < p.1.start := by
          have := hpf.2
          simp only [Bool.and_eq_true, decide_eq_true_eq] at this
          exact this.2
        refine ⟨p.1, ?_, hlt⟩
        rw [← hr_fst]
        exact List.mem_map_of_mem _ hpf.1
    -- completeness: every reachable point is at most the final coverage end
    have hcomplete : ∀ e, Reaches intervals now e → e ≤ r.2 := by
      intro e he
      induction he with
      | base iv hm hs hstop =>
        obtain ⟨p, hp, rfl⟩ := hentry iv hm
        cases hpu : p.2 with
        | false =>
          have := hr_fix p hp hpu
          omega
        | true => exact (hr_used p hp hpu).2
      | step e iv hre hm hs ih =>
        obtain ⟨p, hp, rfl⟩ := hentry iv hm
        cases hpu : p.2 with
        | false =>
          have := hr_fix p hp hpu
          omega
        | true => exact (hr_used p hp hpu).2
    -- soundness: the final coverage end is itself reachable
    have hreach : Reaches intervals now r.2 := by
      refine coverageLoop_reaches init ce0 intervals now ?_ ?_
      · rcases foldl_max_mem c.stop (cs.map TimeInterval.stop) with hm | hm
        · rw [hce0, hm]
          exact .base c hcmem.1 hcmem.2.1 hcmem.2.2
        · obtain ⟨x, hx, hxs⟩ := List.mem_map.mp hm
          have hxc := (hcontain x).mp (List.mem_cons_of_mem _ hx)
          rw [hce0, ← hxs]
          exact .base x hxc.1 hxc.2.1 hxc.2.2
      · intro p hp
        exact (hinit_mem p hp).1
    subst hce
    cases hie : (r.1.filter (fun p => !p.2 && decide (r.2 < p.1.start))).isEmpty with
    | true =>
      rw [hie] at hg
      simp only [if_pos rfl] at hg
      refine ⟨hnow_ce, habsorb, ?_, ?_, hreach, hcomplete⟩
      · rw [hfuture, hie, ← hg]
        simp
      · left; exact hg.symm
    | false =>
      rw [hie] at hg
      rw [if_neg Bool.false_ne_true] at hg
      refine ⟨hnow_ce, habsorb, ?_, ?_, hreach, hcomplete⟩
      · rw [hfuture, hie, ← hg]
        simp
      · right; exact hg.symm

/-- Source: `CoverageResult`.  `coverageEndAt`/`gapStartAt` are ISO strings
in the source, produced injectively and monotonically from the millisecond
value by `toISOString`; they are modelled by the millisecond value. -/
structure CoverageResult where
  hasCoverage : Bool
  coverageEndAt : Option Int
  remainingMinutes : Option Int
  hasGap : Bool
  gapStartAt : Option Int
deriving DecidableEq, Repr

/-- Source: `calculateCoverage`. -/
def calculateCoverage (codes : List PromoCode) (now : Int) : CoverageResult :=
  if (extractIntervals codes now).isEmpty then
    ⟨false, none, none, false, none⟩
  else
    match calculateCoverageEnd (sortIntervalsByStart (extractIntervals codes now)) now with
    | (none, _) => ⟨false, none, none, false, none⟩
    | (some coverageEnd, gapStart) =>
      ⟨true, some coverageEnd, some (max 0 (Int.fdiv (coverageEnd - now) (1000 * 60))),
        gapStart.isSome, gapStart⟩

theorem Reaches.exists_containing {ivs : List TimeInterval} {now e : Int}
    (h : Reaches ivs now e) :
    ∃ iv ∈ ivs, iv.start ≤ now ∧ now ≤ iv.stop := by
  induction h with
  | base iv hm hs he => exact ⟨iv, hm, hs, he⟩
  | step e iv hre hm hs ih => exact ih

theorem mem_sortIntervalsByStart (iv : TimeInterval) (l : List TimeInterval) :
    iv ∈ sortIntervalsByStart l ↔ iv ∈ l := by
  unfold sortIntervalsByStart
  exact List.mem_insertionSort _

theorem extractIntervals_append (codes₁ codes₂ : List PromoCode) (now : Int) :
    extractIntervals (codes₁ ++ codes₂) now =
      extractIntervals codes₁ now ++ extractIntervals codes₂ now := by
  unfold extractIntervals getActiveCodes filterByStatus attachStatusToAll
  simp [List.map_append, List.filter_append, List.filterMap_append]

theorem calculateCoverageEnd_none (intervals : List TimeInterval) (now : Int)
    (h : (calculateCoverageEnd intervals now).1 = none) :
    calculateCoverageEnd intervals now = (none, none) ∧
      getIntervalsContainingNow intervals now = [] := by
  unfold calculateCoverageEnd at h ⊢
  cases hc : getIntervalsContainingNow intervals now with
  | nil => simp
  | cons c cs => rw [hc] at h; simp at h

/-- `calculateCoverage` either reports no coverage (and the interval merge
found no coverage end), or faithfully repackages the merge result. -/
theorem calculateCoverage_eq (codes : List PromoCode) (now : Int) :
    (calculateCoverage codes now = ⟨false, none, none, false, none⟩ ∧
      calculateCoverageEnd (sortIntervalsByStart (extractIntervals codes now)) now
        = (none, none)) ∨
    (∃ ce gp,
      calculateCoverageEnd (sortIntervalsByStart (extractIntervals codes now)) now
        = (some ce, gp) ∧
      calculateCoverage codes now =
        ⟨true, some ce, some (max 0 (Int.fdiv (ce - now) (1000 * 60))), gp.isSome, gp⟩) := by
  cases hie : (extractIntervals codes now).isEmpty with
  | true =>
    left
    have hnil : extractIntervals codes now = [] := List.isEmpty_iff.mp hie
    constructor
    · unfold calculateCoverage
      rw [hie]
      simp
    · rw [hnil]
      unfold sortIntervalsByStart calculateCoverageEnd getIntervalsContainingNow
      simp
  | false =>
    have hunf : calculateCoverage codes now =
        (match calculateCoverageEnd (sortIntervalsByStart (extractIntervals codes now)) now with
         | (none, _) => (⟨false, none, none, false, none⟩ : CoverageResult)
         | (some coverageEnd, gapStart) =>
            ⟨true, some coverageEnd, some (max 0 (Int.fdiv (coverageEnd - now) (1000 * 60))),
              gapStart.isSome, gapStart⟩) := by
      unfold calculateCoverage
      rw [hie]
      simp
    cases hcc : calculateCoverageEnd (sortIntervalsByStart (extractIntervals codes now)) now with
    | mk o1 o2 =>
      rw [hcc] at hunf
      cases o1 with
      | none =>
        left
        have hpair := (calculateCoverageEnd_none _ now (by rw [hcc])).1
        rw [hcc] at hpair
        obtain ⟨rfl⟩ : o2 = none := by
          have := congrArg Prod.snd hpair
          simpa using this
        exact ⟨by rw [hunf], rfl⟩
      | some ce =>
        right
        exact ⟨ce, o2, rfl, by rw [hunf]⟩

end Povo

namespace Povo

/-- C1: for every code satisfying the null-pairing invariant and every instant
`now`: if `startedAt` is non-null, the status is `active` when
`now ≤ expiresAt` (inclusive) and `consumed` otherwise — regardless of
`inputDeadline`; if `startedAt` is null, the status is `unused` when
`now ≤ inputDeadline` (inclusive) and `expired` otherwise. -/
theorem determineCodeStatus_spec (code : PromoCode) (now : Int)
    (hinv : NullPairing code) :
    (∀ e, code.expiresAt = some e →
      determineCodeStatus code now =
        (if now ≤ e then CodeStatus.active else CodeStatus.consumed)) ∧
    (code.startedAt = none →
      determineCodeStatus code now =
        (if now ≤ code.inputDeadline then CodeStatus.unused else CodeStatus.expired)) := by
  unfold NullPairing at hinv
  constructor
  · intro e he
    cases hs : code.startedAt with
    | none => rw [hs, he] at hinv; simp at hinv
    | some s => simp [determineCodeStatus, hs, he]
  · intro hs
    cases he : code.expiresAt with
    | none => simp [determineCodeStatus, hs, he]
    | some e => rw [hs, he] at hinv; simp at hinv

/-- Witness for C1 at a concrete activated code whose input deadline has
already passed and a concrete never-activated code. -/
theorem determineCodeStatus_spec_witness :
    NullPairing ⟨"a", 1, "X1", 10, 5, some 0, some 300000⟩ ∧
    determineCodeStatus ⟨"a", 1, "X1", 10, 5, some 0, some 300000⟩ 100 =
      (if (100 : Int) ≤ 300000 then CodeStatus.active else CodeStatus.consumed) := by
  refine ⟨by decide, ?_⟩
  exact (determineCodeStatus_spec ⟨"a", 1, "X1", 10, 5, some 0, some 300000⟩ 100
    (by decide)).1 300000 rfl

/-- C2: whenever coverage exists, every active interval that touches or
overlaps the coverage window (start at or before `coverageEnd`) has been
merged into it (its end also lies at or before `coverageEnd`); a gap is
reported exactly when some active interval starts strictly after
`coverageEnd`; and the reported `gapStartAt` is the coverage boundary
`coverageEnd` itself, not the next interval's start. -/
theorem coverage_merge_and_gap_spec (codes : List PromoCode) (now ce : Int)
    (h : (calculateCoverage codes now).coverageEndAt = some ce) :
    (∀ iv ∈ extractIntervals codes now, iv.start ≤ ce → iv.stop ≤ ce) ∧
    ((calculateCoverage codes now).hasGap = true ↔
      ∃ iv ∈ extractIntervals codes now, ce < iv.start) ∧
    ((calculateCoverage codes now).hasGap = true →
      (calculateCoverage codes now).gapStartAt = some ce) := by
  rcases calculateCoverage_eq codes now with ⟨hq, _⟩ | ⟨ce', gp, hcc, hq⟩
  · rw [hq] at h; simp at h
  · rw [hq] at h
    simp only [CoverageResult.coverageEndAt, Option.some.injEq] at h
    subst h
    obtain ⟨h1, h2, h3, h4, h5, h6⟩ := calculateCoverageEnd_spec _ now ce' gp hcc
    refine ⟨?_, ?_, ?_⟩
    · intro iv hiv hs
      exact h2 iv ((mem_sortIntervalsByStart iv _).mpr hiv) hs
    · rw [hq]
      simp only [CoverageResult.hasGap]
      constructor
      · intro hgap
        have : gp = some ce' := by
          rcases h4 with h4 | h4
          · rw [h4] at hgap; simp at hgap
          · exact h4
        obtain ⟨iv, hiv, hlt⟩ := h3.mpr this
        exact ⟨iv, (mem_sortIntervalsByStart iv _).mp hiv, hlt⟩
      · intro ⟨iv, hiv, hlt⟩
        have := h3.mp ⟨iv, (mem_sortIntervalsByStart iv _).mpr hiv, hlt⟩
        rw [this]
        rfl
    · intro hgap
      rw [hq] at hgap ⊢
      simp only [CoverageResult.hasGap] at hgap
      simp only [CoverageResult.gapStartAt]
      rcases h4 with h4 | h4
      · rw [h4] at hgap; simp at hgap
      · exact h4

/-- Witness for C2: intervals `[10,17]` and `[20,27]` with `now = 15`
(scenario 3 of the spec, scaled): coverage ends at 17, a gap is reported and
`gapStartAt` is the boundary 17. -/
theorem coverage_merge_and_gap_spec_witness :
    (calculateCoverage
        [⟨"a", 1, "A1", 100, 7, some 10, some 17⟩,
         ⟨"b", 2, "B2", 100, 7, some 20, some 27⟩] 15).coverageEndAt = some 17 ∧
    ((calculateCoverage
        [⟨"a", 1, "A1", 100, 7, some 10, some 17⟩,
         ⟨"b", 2, "B2", 100, 7, some 20, some 27⟩] 15).hasGap = true ↔
      ∃ iv ∈ extractIntervals
        [⟨"a", 1, "A1", 100, 7, some 10, some 17⟩,
         ⟨"b", 2, "B2", 100, 7, some 20, some 27⟩] 15, 17 < iv.start) := by
  refine ⟨by decide, ?_⟩
  exact (coverage_merge_and_gap_spec
    [⟨"a", 1, "A1", 100, 7, some 10, some 17⟩,
     ⟨"b", 2, "B2", 100, 7, some 20, some 27⟩] 15 17 (by decide)).2.1

/-- C3: coverage is monotone in the interval set — appending one further
code can only extend or keep the coverage end, never shrink it, whenever the
smaller list already has coverage. -/
theorem coverage_monotone_spec (codes : List PromoCode) (extra : PromoCode)
    (now ce : Int)
    (h : (calculateCoverage codes now).coverageEndAt = some ce) :
    ∃ ce', (calculateCoverage (codes ++ [extra]) now).coverageEndAt = some ce' ∧
      ce ≤ ce' := by
  rcases calculateCoverage_eq codes now with ⟨hq, _⟩ | ⟨ce1, gp, hcc, hq⟩
  · rw [hq] at h; simp at h
  · rw [hq] at h
    simp only [CoverageResult.coverageEndAt, Option.some.injEq] at h
    subst h
    obtain ⟨_, _, _, _, h5, _⟩ := calculateCoverageEnd_spec _ now ce1 gp hcc
    have hsub : ∀ iv ∈ sortIntervalsByStart (extractIntervals codes now),
        iv ∈ sortIntervalsByStart (extractIntervals (codes ++ [extra]) now) := by
      intro iv hiv
      rw [mem_sortIntervalsByStart] at hiv ⊢
      rw [extractIntervals_append]
      exact List.mem_append_left _ hiv
    rcases calculateCoverage_eq (codes ++ [extra]) now with ⟨_, hcc2⟩ | ⟨ce2, gp2, hcc2, hq2⟩
    · exfalso
      obtain ⟨iv, hm, hs, he⟩ := h5.exists_containing
      have hmem2 := hsub iv hm
      have : iv ∈ getIntervalsContainingNow
          (sortIntervalsByStart (extractIntervals (codes ++ [extra]) now)) now := by
        unfold getIntervalsContainingNow
        exact List.mem_filter.mpr ⟨hmem2, by simp [hs, he]⟩
      rw [(calculateCoverageEnd_none _ now (by rw [hcc2])).2] at this
      exact absurd this (List.not_mem_nil iv)
    · obtain ⟨_, _, _, _, _, hcomp2⟩ := calculateCoverageEnd_spec _ now ce2 gp2 hcc2
      refine ⟨ce2, by rw [hq2], hcomp2 ce1 (h5.mono hsub)⟩

/-- Witness for C3: the single-interval list `[10,17]` at `now = 15` has
coverage end 17; appending a touching code `[17,27]` yields coverage end 27,
which is not smaller. -/
theorem coverage_monotone_spec_witness :
    (calculateCoverage [⟨"a", 1, "A1", 100, 7, some 10, some 17⟩] 15).coverageEndAt
      = some 17 ∧
    ∃ ce', (calculateCoverage
        ([⟨"a", 1, "A1", 100, 7, some 10, some 17⟩] ++
          [⟨"b", 2, "B2", 100, 10, some 17, some 27⟩]) 15).coverageEndAt = some ce' ∧
      (17 : Int) ≤ ce' := by
  refine ⟨by decide, ?_⟩
  exact coverage_monotone_spec [⟨"a", 1, "A1", 100, 7, some 10, some 17⟩]
    ⟨"b", 2, "B2", 100, 10, some 17, some 27⟩ 15 17 (by decide)

/-- C8: when no active interval contains `now`, the result is the empty
coverage record — all fields false/null — even if active intervals lying in
the future exist. -/
theorem coverage_no_containing_spec (codes : List PromoCode) (now : Int)
    (h : ∀ iv ∈ extractIntervals codes now, ¬ (iv.start ≤ now ∧ now ≤ iv.stop)) :
    calculateCoverage codes now = ⟨false, none, none, false, none⟩ := by
  rcases calculateCoverage_eq codes now with ⟨hq, _⟩ | ⟨ce, gp, hcc, hq⟩
  · exact hq
  · exfalso
    obtain ⟨_, _, _, _, h5, _⟩ := calculateCoverageEnd_spec _ now ce gp hcc
    obtain ⟨iv, hm, hs, he⟩ := h5.exists_containing
    exact h iv ((mem_sortIntervalsByStart iv _).mp hm) ⟨hs, he⟩

/-- Witness for C8: a single active code whose interval `[100,200]` lies
entirely in the future of `now = 50` yields the empty coverage record. -/
theorem coverage_no_containing_spec_witness :
    (∀ iv ∈ extractIntervals [⟨"a", 1, "A1", 300, 2, some 100, some 200⟩] 50,
      ¬ (iv.start ≤ 50 ∧ (50 : Int) ≤ iv.stop)) ∧
    calculateCoverage [⟨"a", 1, "A1", 300, 2, some 100, some 200⟩] 50 =
      ⟨false, none, none, false, none⟩ := by
  refine ⟨by decide, ?_⟩
  exact coverage_no_containing_spec [⟨"a", 1, "A1", 300, 2, some 100, some 200⟩] 50
    (by decide)

/-- C9: whenever coverage exists, `remainingMinutes` is
`floor((coverageEnd - now) / 60000)` clamped to be non-negative. -/
theorem coverage_remaining_minutes_spec (codes : List PromoCode) (now ce : Int)
    (h : (calculateCoverage codes now).coverageEndAt = some ce) :
    (calculateCoverage codes now).remainingMinutes =
      some (max 0 (Int.fdiv (ce - now) 60000)) := by
  rcases calculateCoverage_eq codes now with ⟨hq, _⟩ | ⟨ce', gp, hcc, hq⟩
  · rw [hq] at h; simp at h
  · rw [hq] at h ⊢
    simp only [CoverageResult.coverageEndAt, Option.some.injEq] at h
    subst h
    norm_num

/-- Witness for C9 at the C2 scenario: coverage end 17 at `now = 15` gives
`max 0 (floor(2 / 60000)) = 0` remaining minutes. -/
theorem coverage_remaining_minutes_spec_witness :
    (calculateCoverage [⟨"a", 1, "A1", 100, 7, some 10, some 17⟩] 15).coverageEndAt
      = some 17 ∧
    (calculateCoverage [⟨"a", 1, "A1", 100, 7, some 10, some 17⟩] 15).remainingMinutes
      = some (max 0 (Int.fdiv (17 - 15) 60000)) := by
  refine ⟨by decide, ?_⟩
  exact coverage_remaining_minutes_spec [⟨"a", 1, "A1", 100, 7, some 10, some 17⟩]
    15 17 (by decide)

end Povo

namespace Povo

/-- Source: `NextCandidateResult`. -/
structure NextCandidateResult where
  hasCandidate : Bool
  candidate : Option PromoCodeWithStatus
deriving DecidableEq, Repr

/-- The comparator of `getNextCandidate` as a relation: the source sorts by
`a.order - b.order`, tie-broken by `a.id.localeCompare(b.id)` — `order`
ascending, then `id` ascending (codepoint order on the UUID ids). -/
def candidateLE (a b : PromoCodeWithStatus) : Prop :=
  a.order < b.order ∨ (a.order = b.order ∧ a.id ≤ b.id)

instance : DecidableRel candidateLE := fun a b => by
  unfold candidateLE; infer_instance

instance : IsTotal PromoCodeWithStatus candidateLE where
  total a b := by
    unfold candidateLE
    rcases Nat.lt_trichotomy a.order b.order with h | h | h
    · exact Or.inl (Or.inl h)
    · rcases le_total a.id b.id with hid | hid
      · exact Or.inl (Or.inr ⟨h, hid⟩)
      · exact Or.inr (Or.inr ⟨h.symm, hid⟩)
    · exact Or.inr (Or.inl h)

instance : IsTrans PromoCodeWithStatus candidateLE where
  trans a b c hab hbc := by
    unfold candidateLE at *
    rcases hab with hab | ⟨hab, hab'⟩ <;> rcases hbc with hbc | ⟨hbc, hbc'⟩
    · exact Or.inl (lt_trans hab hbc)
    · exact Or.inl (hbc ▸ hab)
    · exact Or.inl (hab ▸ hbc)
    · exact Or.inr ⟨hab.trans hbc, le_trans hab' hbc'⟩

/-- Source: `getNextCandidate` — filter to `unused`, sort by the comparator
(a stable sort; realised by the stable insertion sort), return the head.
The source's redundant `undefined` check on `sortedCodes[0]` is the `none`
branch of the `head?` match. -/
def getNextCandidate (codes : List PromoCode) (now : Int) : NextCandidateResult :=
  if (getUnusedCodes codes now).isEmpty then
    ⟨false, none⟩
  else
    match ((getUnusedCodes codes now).insertionSort candidateLE).head? with
    | none => ⟨false, none⟩
    | some candidate => ⟨true, some candidate⟩

/-- Every unused code is a status-attached member of the input list. -/
theorem mem_getUnusedCodes (codes : List PromoCode) (now : Int) (c : PromoCodeWithStatus)
    (hc : c ∈ getUnusedCodes codes now) :
    ∃ code ∈ codes, c = attachStatus code now := by
  unfold getUnusedCodes filterByStatus attachStatusToAll at hc
  have := (List.mem_filter.mp hc).1
  obtain ⟨code, hcode, rfl⟩ := List.mem_map.mp this
  exact ⟨code, hcode, rfl⟩

end Povo

namespace Povo

/-- C4: `getNextCandidate` filters to `unused` codes, returns no candidate
when none exist, and otherwise returns a candidate that is unused and
strictly minimal under (`order` ascending, ties by `id` ascending) among all
other unused codes — hence the unique minimum when ids are distinct, and
deterministic under re-runs. -/
theorem getNextCandidate_spec (codes : List PromoCode) (now : Int)
    (hids : (codes.map PromoCode.id).Nodup) :
    (getUnusedCodes codes now = [] →
      getNextCandidate codes now = ⟨false, none⟩) ∧
    (getUnusedCodes codes now ≠ [] →
      ∃ c, getNextCandidate codes now = ⟨true, some c⟩ ∧
        c ∈ getUnusedCodes codes now ∧
        ∀ d ∈ getUnusedCodes codes now, d ≠ c →
          c.order < d.order ∨ (c.order = d.order ∧ c.id < d.id)) := by
  constructor
  · intro hempty
    unfold getNextCandidate
    rw [hempty]
    rfl
  · intro hne
    have hinj := List.inj_on_of_nodup_map hids
    have hsorted_ne : (getUnusedCodes codes now).insertionSort candidateLE ≠ [] := by
      intro hnil
      have := List.perm_insertionSort candidateLE (getUnusedCodes codes now)
      rw [hnil] at this
      exact hne (List.Perm.eq_nil this.symm)
    cases hhead : ((getUnusedCodes codes now).insertionSort candidateLE) with
    | nil => exact absurd hhead hsorted_ne
    | cons c tail =>
      refine ⟨c, ?_, ?_, ?_⟩
      · unfold getNextCandidate
        rw [if_neg (by simpa using hne), hhead]
        rfl
      · have : c ∈ (getUnusedCodes codes now).insertionSort candidateLE := by
          rw [hhead]; exact List.mem_cons_self _ _
        exact (List.mem_insertionSort candidateLE).mp this
      · intro d hd hdc
        have hdsort : d ∈ (getUnusedCodes codes now).insertionSort candidateLE :=
          (List.mem_insertionSort candidateLE).mpr hd
        rw [hhead] at hdsort
        have hdtail : d ∈ tail := by
          rcases List.mem_cons.mp hdsort with h | h
          · exact absurd h hdc
          · exact h
        have hpair : candidateLE c d := by
          have hs := List.sorted_insertionSort candidateLE (getUnusedCodes codes now)
          rw [hhead] at hs
          exact (List.pairwise_cons.mp hs).1 d hdtail
        rcases hpair with h | ⟨ho, hid⟩
        · exact Or.inl h
        · refine Or.inr ⟨ho, lt_of_le_of_ne hid ?_⟩
          intro hideq
          apply hdc
          have hcmem : c ∈ getUnusedCodes codes now := by
            have : c ∈ (getUnusedCodes codes now).insertionSort candidateLE := by
              rw [hhead]; exact List.mem_cons_self _ _
            exact (List.mem_insertionSort candidateLE).mp this
          obtain ⟨code1, hcode1, rfl⟩ := mem_getUnusedCodes codes now c hcmem
          obtain ⟨code2, hcode2, rfl⟩ := mem_getUnusedCodes codes now d hd
          have heq : code1 = code2 := hinj hcode1 hcode2 hideq
          rw [heq]

/-- Witness for C4 at the spec's scenario 4: two unused codes with equal
`order = 1` and ids `"zzz"` and `"aaa"` — the candidate is the one with id
`"aaa"`, strictly smaller than the other. -/
theorem getNextCandidate_spec_witness :
    ([⟨"zzz", 1, "Z9", 100, 5, none, none⟩,
      ⟨"aaa", 1, "A1", 100, 5, none, none⟩].map PromoCode.id).Nodup ∧
    getUnusedCodes [⟨"zzz", 1, "Z9", 100, 5, none, none⟩,
      ⟨"aaa", 1, "A1", 100, 5, none, none⟩] 50 ≠ [] ∧
    ∃ c, getNextCandidate [⟨"zzz", 1, "Z9", 100, 5, none, none⟩,
        ⟨"aaa", 1, "A1", 100, 5, none, none⟩] 50 = ⟨true, some c⟩ ∧
      c ∈ getUnusedCodes [⟨"zzz", 1, "Z9", 100, 5, none, none⟩,
        ⟨"aaa", 1, "A1", 100, 5, none, none⟩] 50 ∧
      ∀ d ∈ getUnusedCodes [⟨"zzz", 1, "Z9", 100, 5, none, none⟩,
          ⟨"aaa", 1, "A1", 100, 5, none, none⟩] 50, d ≠ c →
        c.order < d.order ∨ (c.order = d.order ∧ c.id < d.id) := by
  refine ⟨by decide, by decide, ?_⟩
  exact (getNextCandidate_spec [⟨"zzz", 1, "Z9", 100, 5, none, none⟩,
    ⟨"aaa", 1, "A1", 100, 5, none, none⟩] 50 (by decide)).2 (by decide)

end Povo

namespace Povo

/-- Source: the scheduler's notification type union `'expiry' | 'inputDeadline'`. -/
inductive NotificationType where
  | expiry
  | inputDeadline
deriving DecidableEq, Repr

/-- The string each notification type contributes to key strings. -/
def NotificationType.label : NotificationType → String
  | .expiry => "expiry"
  | .inputDeadline => "inputDeadline"

/-- Source: `NotificationSettings` (two independent minute-offset lists). -/
structure NotificationSettings where
  expiryThresholdsMinutes : List Nat
  inputDeadlineThresholdsMinutes : List Nat
deriving DecidableEq, Repr

/-- Source: `ScheduledNotification`.  The timer handle is not modelled: a
live timer is exactly an entry of the scheduled map. -/
structure ScheduledNotification where
  id : String
  scheduledAt : Int
  type : NotificationType
  codeId : String
  thresholdMinutes : Nat
deriving DecidableEq, Repr

/-- The mutable state of the `NotificationScheduler` singleton: the map of
scheduled notifications keyed by notification-id string, the session
fired-set, the current settings and the current code list. -/
structure SchedulerState where
  scheduledNotifications : List (String × ScheduledNotification)
  firedNotifications : List String
  settings : Option NotificationSettings
  codes : List PromoCode
deriving DecidableEq, Repr

/-- Source: `createFiredKey` — the string
`${codeId}-${type}-${thresholdMinutes}`. -/
def createFiredKey (codeId : String) (type : NotificationType)
    (thresholdMinutes : Nat) : String :=
  codeId ++ "-" ++ type.label ++ "-" ++ toString thresholdMinutes

/-- The template-literal notification id built inside `scheduleNotification`
and `fireNotification`; it is the identical string to `createFiredKey`. -/
def notificationId (codeId : String) (type : NotificationType)
    (thresholdMinutes : Nat) : String :=
  codeId ++ "-" ++ type.label ++ "-" ++ toString thresholdMinutes

theorem notificationId_eq_createFiredKey (codeId : String) (type : NotificationType)
    (thresholdMinutes : Nat) :
    notificationId codeId type thresholdMinutes =
      createFiredKey codeId type thresholdMinutes := rfl

/-- Source: `MAX_TIMEOUT` — Node's maximal single-shot timer delay in
milliseconds (about 24.8 days). -/
def MAX_TIMEOUT : Int := 2147483647

/-- The parameter record of the source's `scheduleNotification`. -/
structure ScheduleParams where
  codeId : String
  code : String
  type : NotificationType
  thresholdMinutes : Nat
  notifyAt : Int
  targetTime : Int
deriving DecidableEq, Repr

/-- The set of live timer keys. -/
def liveKeys (st : SchedulerState) : List String :=
  st.scheduledNotifications.map Prod.fst

/-- Source: `scheduleNotification` — do nothing when the key is already
scheduled; do nothing (deferring to the periodic re-scan) when the delay
exceeds `MAX_TIMEOUT`; otherwise arm a timer and record the entry.  The
source's `Date.now()` is the pass instant `now`. -/
def scheduleNotification (now : Int) (st : SchedulerState) (p : ScheduleParams) :
    SchedulerState :=
  if (st.scheduledNotifications.lookup
      (notificationId p.codeId p.type p.thresholdMinutes)).isSome then st
  else if p.notifyAt - now > MAX_TIMEOUT then st
  else
    { st with scheduledNotifications :=
        (notificationId p.codeId p.type p.thresholdMinutes,
          ⟨notificationId p.codeId p.type p.thresholdMinutes, p.notifyAt, p.type,
            p.codeId, p.thresholdMinutes⟩) :: st.scheduledNotifications }

/-- The body of the threshold loop in `scheduleExpiryNotifications`: skip
fire times already past (`notifyAt <= now`), skip keys already fired, then
try to arm. -/
def expiryStep (code : PromoCode) (now expiresAt : Int) (acc : SchedulerState)
    (thresholdMinutes : Nat) : SchedulerState :=
  if expiresAt - (thresholdMinutes : Int) * 60 * 1000 ≤ now then acc
  else if acc.firedNotifications.contains
      (createFiredKey code.id .expiry thresholdMinutes) then acc
  else scheduleNotification now acc
    ⟨code.id, code.code, .expiry, thresholdMinutes,
      expiresAt - (thresholdMinutes : Int) * 60 * 1000, expiresAt⟩

/-- Source: `scheduleExpiryNotifications` — guard on settings and a non-null
`expiresAt`, then run the threshold loop. -/
def scheduleExpiryNotifications (code : PromoCode) (now : Int)
    (st : SchedulerState) : SchedulerState :=
  match st.settings, code.expiresAt with
  | some settings, some expiresAt =>
      settings.expiryThresholdsMinutes.foldl (expiryStep code now expiresAt) st
  | _, _ => st

/-- The body of the threshold loop in `scheduleInputDeadlineNotifications`,
keyed against the (always present) `inputDeadline`. -/
def inputDeadlineStep (code : PromoCode) (now : Int) (acc : SchedulerState)
    (thresholdMinutes : Nat) : SchedulerState :=
  if code.inputDeadline - (thresholdMinutes : Int) * 60 * 1000 ≤ now then acc
  else if acc.firedNotifications.contains
      (createFiredKey code.id .inputDeadline thresholdMinutes) then acc
  else scheduleNotification now acc
    ⟨code.id, code.code, .inputDeadline, thresholdMinutes,
      code.inputDeadline - (thresholdMinutes : Int) * 60 * 1000, code.inputDeadline⟩

/-- Source: `scheduleInputDeadlineNotifications`. -/
def scheduleInputDeadlineNotifications (code : PromoCode) (now : Int)
    (st : SchedulerState) : SchedulerState :=
  match st.settings with
  | some settings =>
      settings.inputDeadlineThresholdsMinutes.foldl (inputDeadlineStep code now) st
  | none => st

/-- The per-code body of `scheduleAllNotifications`: expiry notifications
for `active` codes with a non-null `expiresAt`, input-deadline notifications
for `unused` codes. -/
def allStep (now : Int) (acc : SchedulerState) (code : PromoCode) : SchedulerState :=
  let status := determineCodeStatus code now
  let acc1 :=
    if status = .active ∧ code.expiresAt ≠ none then
      scheduleExpiryNotifications code now acc
    else acc
  if status = .unused then scheduleInputDeadlineNotifications code now acc1 else acc1

/-- Source: `scheduleAllNotifications` — nothing without settings, else one
pass over the code list. -/
def scheduleAllNotifications (now : Int) (st : SchedulerState) : SchedulerState :=
  match st.settings with
  | none => st
  | some _ => st.codes.foldl (allStep now) st

/-- Source: `clearAllScheduled` — cancel every live timer and empty the map;
the fired-set is untouched. -/
def clearAllScheduled (st : SchedulerState) : SchedulerState :=
  { st with scheduledNotifications := [] }

/-- Source: `reschedule` — clear all live timers, recompute from state. -/
def reschedule (now : Int) (st : SchedulerState) : SchedulerState :=
  scheduleAllNotifications now (clearAllScheduled st)

/-- Source: `start` — install state, clear, schedule all.  The periodic
re-scan it begins appears as the `opTick` operation. -/
def startScheduler (now : Int) (codes : List PromoCode)
    (settings : NotificationSettings) (st : SchedulerState) : SchedulerState :=
  scheduleAllNotifications now
    (clearAllScheduled { st with codes := codes, settings := some settings })

/-- Source: `updateCodes`. -/
def updateCodes (now : Int) (codes : List PromoCode) (st : SchedulerState) :
    SchedulerState :=
  reschedule now { st with codes := codes }

/-- Source: `updateSettings`. -/
def updateSettings (now : Int) (settings : NotificationSettings)
    (st : SchedulerState) : SchedulerState :=
  reschedule now { st with settings := some settings }

/-- Source: `stop` (halting the periodic re-scan needs no state). -/
def stopScheduler (st : SchedulerState) : SchedulerState :=
  clearAllScheduled st

/-- Source: `resetFiredNotifications`. -/
def resetFiredNotifications (st : SchedulerState) : SchedulerState :=
  { st with firedNotifications := [] }

/-- Source: `fireNotification` — mark the key fired FIRST, drop the timer
entry, then re-verify the code's current status against the current list and
suppress the notification when it no longer matches.  The `Bool` says
whether a notification is emitted (platform support permitting). -/
def fireNotification (now : Int) (codeId _codeStr : String) (type : NotificationType)
    (thresholdMinutes : Nat) (st : SchedulerState) : SchedulerState × Bool :=
  let firedKey := createFiredKey codeId type thresholdMinutes
  let st2 : SchedulerState :=
    { st with
      firedNotifications :=
        if st.firedNotifications.contains firedKey then st.firedNotifications
        else firedKey :: st.firedNotifications,
      scheduledNotifications :=
        st.scheduledNotifications.filter
          (fun p => p.1 ≠ notificationId codeId type thresholdMinutes) }
  (st2,
    match st2.codes.find? (fun c => c.id = codeId) with
    | none => false
    | some currentCode =>
      if type = .expiry ∧ determineCodeStatus currentCode now ≠ .active then false
      else if type = .inputDeadline ∧ determineCodeStatus currentCode now ≠ .unused then
        false
      else true)

/-- The public operations of the scheduler, including the periodic re-scan
(`opTick`, which the source's interval timer implements as `reschedule`) and
the firing of an armed timer. -/
inductive SchedulerOp where
  | opStart (codes : List PromoCode) (settings : NotificationSettings)
  | opUpdateCodes (codes : List PromoCode)
  | opUpdateSettings (settings : NotificationSettings)
  | opReschedule
  | opTick
  | opStop
  | opReset
  | opFire (codeId codeStr : String) (type : NotificationType) (thresholdMinutes : Nat)
deriving DecidableEq

/-- One scheduler operation, at instant `now`. -/
def applyOp (now : Int) (st : SchedulerState) : SchedulerOp → SchedulerState
  | .opStart codes settings => startScheduler now codes settings st
  | .opUpdateCodes codes => updateCodes now codes st
  | .opUpdateSettings settings => updateSettings now settings st
  | .opReschedule => reschedule now st
  | .opTick => reschedule now st
  | .opStop => stopScheduler st
  | .opReset => resetFiredNotifications st
  | .opFire codeId codeStr type thresholdMinutes =>
      (fireNotification now codeId codeStr type thresholdMinutes st).1

/-- The scheduler's state at construction: empty maps, no settings, no codes. -/
def initialSchedulerState : SchedulerState := ⟨[], [], none, []⟩

/-- States reachable from construction through scheduler operations. -/
inductive ReachableState : SchedulerState → Prop where
  | init : ReachableState initialSchedulerState
  | step (st : SchedulerState) (now : Int) (op : SchedulerOp) :
      ReachableState st → ReachableState (applyOp now st op)

end Povo

namespace Povo

theorem SchedulerState.ext2 (a b : SchedulerState)
    (h1 : a.scheduledNotifications = b.scheduledNotifications)
    (h2 : a.firedNotifications = b.firedNotifications)
    (h3 : a.settings = b.settings) (h4 : a.codes = b.codes) : a = b := by
  cases a; cases b; simp_all

/-- Projection preservation through a `foldl` whose step preserves it. -/
theorem foldl_preserves {β γ : Type} (g : SchedulerState → β → SchedulerState)
    (f : SchedulerState → γ) (hg : ∀ acc t, f (g acc t) = f acc) :
    ∀ (l : List β) (acc : SchedulerState), f (l.foldl g acc) = f acc := by
  intro l
  induction l with
  | nil => intro acc; rfl
  | cons hd tl ih => intro acc; rw [List.foldl_cons, ih, hg]

theorem scheduleNotification_proj (now : Int) (st : SchedulerState) (p : ScheduleParams) :
    (scheduleNotification now st p).firedNotifications = st.firedNotifications ∧
    (scheduleNotification now st p).settings = st.settings ∧
    (scheduleNotification now st p).codes = st.codes := by
  unfold scheduleNotification
  split_ifs <;> exact ⟨rfl, rfl, rfl⟩

theorem scheduleNotification_keys (now : Int) (st : SchedulerState) (p : ScheduleParams)
    (k : String) (hk : k ∈ liveKeys (scheduleNotification now st p)) :
    k ∈ liveKeys st ∨ k = notificationId p.codeId p.type p.thresholdMinutes := by
  unfold scheduleNotification at hk
  split_ifs at hk
  · exact Or.inl hk
  · exact Or.inl hk
  · unfold liveKeys at hk
    simp only [List.map_cons, List.mem_cons] at hk
    rcases hk with hk | hk
    · exact Or.inr hk
    · exact Or.inl hk

theorem expiryStep_proj (code : PromoCode) (now e : Int) (acc : SchedulerState) (t : Nat) :
    (expiryStep code now e acc t).firedNotifications = acc.firedNotifications ∧
    (expiryStep code now e acc t).settings = acc.settings ∧
    (expiryStep code now e acc t).codes = acc.codes := by
  unfold expiryStep
  split_ifs
  · exact ⟨rfl, rfl, rfl⟩
  · exact ⟨rfl, rfl, rfl⟩
  · exact scheduleNotification_proj now acc _

theorem expiryStep_keys (code : PromoCode) (now e : Int) (acc : SchedulerState) (t : Nat)
    (k : String) (hk : k ∈ liveKeys (expiryStep code now e acc t)) :
    k ∈ liveKeys acc ∨ acc.firedNotifications.contains k = false := by
  unfold expiryStep at hk
  split_ifs at hk with h1 h2
  · exact Or.inl hk
  · exact Or.inl hk
  · rcases scheduleNotification_keys now acc _ k hk with h | h
    · exact Or.inl h
    · right
      rw [h, notificationId_eq_createFiredKey]
      simpa using h2

theorem inputDeadlineStep_proj (code : PromoCode) (now : Int) (acc : SchedulerState) (t : Nat) :
    (inputDeadlineStep code now acc t).firedNotifications = acc.firedNotifications ∧
    (inputDeadlineStep code now acc t).settings = acc.settings ∧
    (inputDeadlineStep code now acc t).codes = acc.codes := by
  unfold inputDeadlineStep
  split_ifs
  · exact ⟨rfl, rfl, rfl⟩
  · exact ⟨rfl, rfl, rfl⟩
  · exact scheduleNotification_proj now acc _

theorem inputDeadlineStep_keys (code : PromoCode) (now : Int) (acc : SchedulerState) (t : Nat)
    (k : String) (hk : k ∈ liveKeys (inputDeadlineStep code now acc t)) :
    k ∈ liveKeys acc ∨ acc.firedNotifications.contains k = false := by
  unfold inputDeadlineStep at hk
  split_ifs at hk with h1 h2
  · exact Or.inl hk
  · exact Or.inl hk
  · rcases scheduleNotification_keys now acc _ k hk with h | h
    · exact Or.inl h
    · right
      rw [h, notificationId_eq_createFiredKey]
      simpa using h2

/-- Newly armed keys through a `foldl` pass are never fired keys. -/
theorem foldl_keys {β : Type} (g : SchedulerState → β → SchedulerState)
    (hg_fired : ∀ acc t, (g acc t).firedNotifications = acc.firedNotifications)
    (hg_keys : ∀ acc t k, k ∈ liveKeys (g acc t) →
      k ∈ liveKeys acc ∨ acc.firedNotifications.contains k = false) :
    ∀ (l : List β) (acc : SchedulerState) (k : String),
      k ∈ liveKeys (l.foldl g acc) →
      k ∈ liveKeys acc ∨ acc.firedNotifications.contains k = false := by
  intro l
  induction l with
  | nil => intro acc k hk; exact Or.inl hk
  | cons hd tl ih =>
    intro acc k hk
    rw [List.foldl_cons] at hk
    rcases ih (g acc hd) k hk with h | h
    · exact hg_keys acc hd k h
    · rw [hg_fired] at h
      exact Or.inr h

theorem scheduleExpiryNotifications_proj (code : PromoCode) (now : Int) (st : SchedulerState) :
    (scheduleExpiryNotifications code now st).firedNotifications = st.firedNotifications ∧
    (scheduleExpiryNotifications code now st).settings = st.settings ∧
    (scheduleExpiryNotifications code now st).codes = st.codes := by
  unfold scheduleExpiryNotifications
  cases hset : st.settings with
  | none => exact ⟨rfl, hset, rfl⟩
  | some s =>
    cases hexp : code.expiresAt with
    | none => exact ⟨rfl, hset, rfl⟩
    | some e =>
      refine ⟨?_, ?_, ?_⟩
      · exact foldl_preserves _ _ (fun acc t => (expiryStep_proj code now e acc t).1) _ st
      · exact (foldl_preserves _ _
          (fun acc t => (expiryStep_proj code now e acc t).2.1) _ st).trans hset
      · exact foldl_preserves _ _ (fun acc t => (expiryStep_proj code now e acc t).2.2) _ st

theorem scheduleExpiryNotifications_keys (code : PromoCode) (now : Int) (st : SchedulerState)
    (k : String) (hk : k ∈ liveKeys (scheduleExpiryNotifications code now st)) :
    k ∈ liveKeys st ∨ st.firedNotifications.contains k = false := by
  unfold scheduleExpiryNotifications at hk
  cases hset : st.settings with
  | none => rw [hset] at hk; exact Or.inl hk
  | some s =>
    cases hexp : code.expiresAt with
    | none => rw [hset, hexp] at hk; exact Or.inl hk
    | some e =>
      rw [hset, hexp] at hk
      exact foldl_keys _ (fun acc t => (expiryStep_proj code now e acc t).1)
        (expiryStep_keys code now e) _ st k hk

theorem scheduleInputDeadlineNotifications_proj (code : PromoCode) (now : Int)
    (st : SchedulerState) :
    (scheduleInputDeadlineNotifications code now st).firedNotifications
        = st.firedNotifications ∧
    (scheduleInputDeadlineNotifications code now st).settings = st.settings ∧
    (scheduleInputDeadlineNotifications code now st).codes = st.codes := by
  unfold scheduleInputDeadlineNotifications
  cases hset : st.settings with
  | none => exact ⟨rfl, hset, rfl⟩
  | some s =>
    refine ⟨?_, ?_, ?_⟩
    · exact foldl_preserves _ _ (fun acc t => (inputDeadlineStep_proj code now acc t).1) _ st
    · exact (foldl_preserves _ _
        (fun acc t => (inputDeadlineStep_proj code now acc t).2.1) _ st).trans hset
    · exact foldl_preserves _ _ (fun acc t => (inputDeadlineStep_proj code now acc t).2.2) _ st

theorem scheduleInputDeadlineNotifications_keys (code : PromoCode) (now : Int)
    (st : SchedulerState) (k : String)
    (hk : k ∈ liveKeys (scheduleInputDeadlineNotifications code now st)) :
    k ∈ liveKeys st ∨ st.firedNotifications.contains k = false := by
  unfold scheduleInputDeadlineNotifications at hk
  cases hset : st.settings with
  | none => rw [hset] at hk; exact Or.inl hk
  | some s =>
    rw [hset] at hk
    exact foldl_keys _ (fun acc t => (inputDeadlineStep_proj code now acc t).1)
      (inputDeadlineStep_keys code now) _ st k hk

theorem allStep_proj (now : Int) (acc : SchedulerState) (code : PromoCode) :
    (allStep now acc code).firedNotifications = acc.firedNotifications ∧
    (allStep now acc code).settings = acc.settings ∧
    (allStep now acc code).codes = acc.codes := by
  simp only [allStep]
  split_ifs
  all_goals
    first
    | exact ⟨rfl, rfl, rfl⟩
    | (refine ⟨?_, ?_, ?_⟩ <;>
        simp [(scheduleInputDeadlineNotifications_proj _ _ _).1,
          (scheduleInputDeadlineNotifications_proj _ _ _).2.1,
          (scheduleInputDeadlineNotifications_proj _ _ _).2.2,
          (scheduleExpiryNotifications_proj _ _ _).1,
          (scheduleExpiryNotifications_proj _ _ _).2.1,
          (scheduleExpiryNotifications_proj _ _ _).2.2])

theorem allStep_keys (now : Int) (acc : SchedulerState) (code : PromoCode) (k : String)
    (hk : k ∈ liveKeys (allStep now acc code)) :
    k ∈ liveKeys acc ∨ acc.firedNotifications.contains k = false := by
  simp only [allStep] at hk
  split_ifs at hk with h1 h2 h3
  · rcases scheduleInputDeadlineNotifications_keys code now _ k hk with h | h
    · rcases scheduleExpiryNotifications_keys code now acc k h with h' | h'
      · exact Or.inl h'
      · exact Or.inr h'
    · rw [(scheduleExpiryNotifications_proj code now acc).1] at h
      exact Or.inr h
  · exact scheduleInputDeadlineNotifications_keys code now acc k hk
  · exact scheduleExpiryNotifications_keys code now acc k hk
  · exact Or.inl hk

theorem scheduleAllNotifications_proj (now : Int) (st : SchedulerState) :
    (scheduleAllNotifications now st).firedNotifications = st.firedNotifications ∧
    (scheduleAllNotifications now st).settings = st.settings ∧
    (scheduleAllNotifications now st).codes = st.codes := by
  unfold scheduleAllNotifications
  cases hset : st.settings with
  | none => exact ⟨rfl, hset, rfl⟩
  | some s =>
    refine ⟨?_, ?_, ?_⟩
    · exact foldl_preserves _ _ (fun acc c => (allStep_proj now acc c).1) _ st
    · exact (foldl_preserves _ _ (fun acc c => (allStep_proj now acc c).2.1) _ st).trans hset
    · exact foldl_preserves _ _ (fun acc c => (allStep_proj now acc c).2.2) _ st

theorem scheduleAllNotifications_keys (now : Int) (st : SchedulerState) (k : String)
    (hk : k ∈ liveKeys (scheduleAllNotifications now st)) :
    k ∈ liveKeys st ∨ st.firedNotifications.contains k = false := by
  unfold scheduleAllNotifications at hk
  cases hset : st.settings with
  | none => rw [hset] at hk; exact Or.inl hk
  | some s =>
    rw [hset] at hk
    exact foldl_keys _ (fun acc c => (allStep_proj now acc c).1) (allStep_keys now) _ st k hk

end Povo

namespace Povo

/-- C7: a notification whose computed delay from `now` exceeds the
platform's maximal single-shot timer delay (2147483647 ms) is silently not
armed — `scheduleNotification` leaves the scheduler state unchanged — and a
key newly armed by `scheduleNotification` always has its delay within that
horizon. -/
theorem schedule_horizon_spec (now : Int) (st : SchedulerState) (p : ScheduleParams) :
    (p.notifyAt - now > MAX_TIMEOUT → scheduleNotification now st p = st) ∧
    (∀ k, k ∉ liveKeys st → k ∈ liveKeys (scheduleNotification now st p) →
      p.notifyAt - now ≤ MAX_TIMEOUT) := by
  constructor
  · intro hbig
    unfold scheduleNotification
    by_cases h1 : (st.scheduledNotifications.lookup
        (notificationId p.codeId p.type p.thresholdMinutes)).isSome
    · rw [if_pos h1]
    · rw [if_neg h1, if_pos hbig]
  · intro k hnot hk
    unfold scheduleNotification at hk
    by_cases h2 : p.notifyAt - now > MAX_TIMEOUT
    · by_cases h1 : (st.scheduledNotifications.lookup
          (notificationId p.codeId p.type p.thresholdMinutes)).isSome
      · rw [if_pos h1] at hk
        exact absurd hk hnot
      · rw [if_neg h1, if_pos h2] at hk
        exact absurd hk hnot
    · exact not_lt.mp h2

/-- Witness for C7: a notification 2147483648 ms in the future is not armed
(state unchanged), and the only way a fresh key gets armed is within the
horizon. -/
theorem schedule_horizon_spec_witness :
    ((2147483648 : Int) - 0 > MAX_TIMEOUT →
      scheduleNotification 0 ⟨[], [], none, []⟩
        ⟨"c1", "X", .expiry, 30, 2147483648, 2149283648⟩ = ⟨[], [], none, []⟩) ∧
    ((2147483648 : Int) - 0 > MAX_TIMEOUT) ∧
    scheduleNotification 0 ⟨[], [], none, []⟩
      ⟨"c1", "X", .expiry, 30, 2147483648, 2149283648⟩ = ⟨[], [], none, []⟩ := by
  refine ⟨(schedule_horizon_spec 0 ⟨[], [], none, []⟩
    ⟨"c1", "X", .expiry, 30, 2147483648, 2149283648⟩).1, by decide, ?_⟩
  exact (schedule_horizon_spec 0 ⟨[], [], none, []⟩
    ⟨"c1", "X", .expiry, 30, 2147483648, 2149283648⟩).1 (by decide)

/-- C6: rescheduling is idempotent on a steady state — a second
`reschedule` with unchanged code list, settings, fired-set and clock yields
the identical set of live timer keys — `reschedule` never removes entries
from the fired-set, and no reschedule arms a timer for a key already in the
fired-set. -/
theorem reschedule_idempotent_spec (now : Int) (st : SchedulerState) :
    liveKeys (reschedule now (reschedule now st)) = liveKeys (reschedule now st) ∧
    (reschedule now st).firedNotifications = st.firedNotifications ∧
    (∀ k, st.firedNotifications.contains k = true →
      k ∉ liveKeys (reschedule now st)) := by
  have hfired : (reschedule now st).firedNotifications = st.firedNotifications :=
    (scheduleAllNotifications_proj now (clearAllScheduled st)).1
  have hsettings : (reschedule now st).settings = st.settings :=
    (scheduleAllNotifications_proj now (clearAllScheduled st)).2.1
  have hcodes : (reschedule now st).codes = st.codes :=
    (scheduleAllNotifications_proj now (clearAllScheduled st)).2.2
  have hclear : clearAllScheduled (reschedule now st) = clearAllScheduled st :=
    SchedulerState.ext2 _ _ rfl hfired hsettings hcodes
  refine ⟨?_, hfired, ?_⟩
  · have : reschedule now (reschedule now st) = reschedule now st := by
      show scheduleAllNotifications now (clearAllScheduled (reschedule now st)) = _
      rw [hclear]
      rfl
    rw [this]
  · intro k hk hmem
    rcases scheduleAllNotifications_keys now (clearAllScheduled st) k hmem with h | h
    · simp [liveKeys, clearAllScheduled] at h
    · rw [show (clearAllScheduled st).firedNotifications = st.firedNotifications from rfl] at h
      rw [hk] at h
      exact Bool.true_eq_false.mp h

/-- Witness for C6 at a concrete state with one unused code, an
input-deadline threshold, and one already-fired key: rescheduling twice
keeps the same keys, the fired-set survives, and the fired key is not armed. -/
theorem reschedule_idempotent_spec_witness :
    liveKeys (reschedule 0 (reschedule 0
      ⟨[], [createFiredKey "c1" .inputDeadline 30], some ⟨[], [30, 60]⟩,
        [⟨"c1", 1, "X", 2700000, 45, none, none⟩]⟩)) =
      liveKeys (reschedule 0
        ⟨[], [createFiredKey "c1" .inputDeadline 30], some ⟨[], [30, 60]⟩,
          [⟨"c1", 1, "X", 2700000, 45, none, none⟩]⟩) ∧
    ([createFiredKey "c1" .inputDeadline 30].contains
        (createFiredKey "c1" .inputDeadline 30) = true) ∧
    createFiredKey "c1" .inputDeadline 30 ∉ liveKeys (reschedule 0
      ⟨[], [createFiredKey "c1" .inputDeadline 30], some ⟨[], [30, 60]⟩,
        [⟨"c1", 1, "X", 2700000, 45, none, none⟩]⟩) := by
  refine ⟨(reschedule_idempotent_spec 0 _).1, by decide, ?_⟩
  exact (reschedule_idempotent_spec 0
    ⟨[], [createFiredKey "c1" .inputDeadline 30], some ⟨[], [30, 60]⟩,
      [⟨"c1", 1, "X", 2700000, 45, none, none⟩]⟩).2.2
    (createFiredKey "c1" .inputDeadline 30) (by decide)

end Povo

namespace Povo

/-- The state component of `fireNotification` in closed form: the key is
recorded as fired (before any status re-check) and its timer entry removed;
nothing else changes. -/
theorem fireNotification_fst (now : Int) (codeId codeStr : String)
    (type : NotificationType) (thresholdMinutes : Nat) (st : SchedulerState) :
    (fireNotification now codeId codeStr type thresholdMinutes st).1 =
      { st with
        firedNotifications :=
          if st.firedNotifications.contains (createFiredKey codeId type thresholdMinutes)
          then st.firedNotifications
          else createFiredKey codeId type thresholdMinutes :: st.firedNotifications,
        scheduledNotifications :=
          st.scheduledNotifications.filter
            (fun p => p.1 ≠ notificationId codeId type thresholdMinutes) } := by
  rfl

/-- The fired-key/live-key disjointness invariant. -/
def FiredClean (st : SchedulerState) : Prop :=
  ∀ k ∈ liveKeys st, st.firedNotifications.contains k = false

theorem firedClean_scheduleAll_clear (now : Int) (s : SchedulerState) :
    FiredClean (scheduleAllNotifications now (clearAllScheduled s)) := by
  intro k hk
  rcases scheduleAllNotifications_keys now (clearAllScheduled s) k hk with h | h
  · simp [liveKeys, clearAllScheduled] at h
  · rw [(scheduleAllNotifications_proj now (clearAllScheduled s)).1]
    exact h

theorem firedClean_fire (now : Int) (codeId codeStr : String) (type : NotificationType)
    (thresholdMinutes : Nat) (st : SchedulerState) (h : FiredClean st) :
    FiredClean (fireNotification now codeId codeStr type thresholdMinutes st).1 := by
  rw [fireNotification_fst]
  intro k hk
  have hk' : k ∈ (st.scheduledNotifications.filter
      (fun p => p.1 ≠ notificationId codeId type thresholdMinutes)).map Prod.fst := hk
  show (if st.firedNotifications.contains (createFiredKey codeId type thresholdMinutes)
      then st.firedNotifications
      else createFiredKey codeId type thresholdMinutes :: st.firedNotifications).contains k
        = false
  obtain ⟨p, hp, rfl⟩ := List.mem_map.mp hk'
  have hpf := List.mem_filter.mp hp
  have hk_ne : p.1 ≠ createFiredKey codeId type thresholdMinutes := by
    have h2 := hpf.2
    simp only [decide_eq_true_eq] at h2
    rw [notificationId_eq_createFiredKey] at h2
    exact h2
  have hbase : st.firedNotifications.contains p.1 = false :=
    h p.1 (List.mem_map_of_mem _ hpf.1)
  by_cases hc : st.firedNotifications.contains
      (createFiredKey codeId type thresholdMinutes) = true
  · rw [if_pos hc]
    exact hbase
  · rw [if_neg hc, List.contains_cons, hbase, Bool.or_false, beq_eq_false_iff_ne]
    exact hk_ne

/-- Every reachable scheduler state keeps its live timer keys disjoint from
the fired-set. -/
theorem reachable_firedClean (st : SchedulerState) (h : ReachableState st) :
    FiredClean st := by
  induction h with
  | init => intro k hk; simp [liveKeys, initialSchedulerState] at hk
  | step st now op hreach ih =>
    cases op with
    | opStart codes settings => exact firedClean_scheduleAll_clear now _
    | opUpdateCodes codes => exact firedClean_scheduleAll_clear now _
    | opUpdateSettings settings => exact firedClean_scheduleAll_clear now _
    | opReschedule => exact firedClean_scheduleAll_clear now _
    | opTick => exact firedClean_scheduleAll_clear now _
    | opStop => intro k hk; simp [applyOp, liveKeys, stopScheduler, clearAllScheduled] at hk
    | opReset => intro k hk; rfl
    | opFire codeId codeStr type thresholdMinutes =>
        exact firedClean_fire now codeId codeStr type thresholdMinutes st ih

/-- The fired-set only grows under every operation except the explicit
reset. -/
theorem applyOp_fired_mono (now : Int) (st : SchedulerState) (op : SchedulerOp)
    (hop : op ≠ SchedulerOp.opReset) (k : String)
    (hk : st.firedNotifications.contains k = true) :
    (applyOp now st op).firedNotifications.contains k = true := by
  cases op with
  | opStart codes settings =>
    show (startScheduler now codes settings st).firedNotifications.contains k = true
    unfold startScheduler
    rw [(scheduleAllNotifications_proj now _).1]
    exact hk
  | opUpdateCodes codes =>
    show (reschedule now _).firedNotifications.contains k = true
    unfold reschedule
    rw [(scheduleAllNotifications_proj now _).1]
    exact hk
  | opUpdateSettings settings =>
    show (reschedule now _).firedNotifications.contains k = true
    unfold reschedule
    rw [(scheduleAllNotifications_proj now _).1]
    exact hk
  | opReschedule =>
    show (reschedule now st).firedNotifications.contains k = true
    unfold reschedule
    rw [(scheduleAllNotifications_proj now _).1]
    exact hk
  | opTick =>
    show (reschedule now st).firedNotifications.contains k = true
    unfold reschedule
    rw [(scheduleAllNotifications_proj now _).1]
    exact hk
  | opStop => exact hk
  | opReset => exact absurd rfl hop
  | opFire codeId codeStr type thresholdMinutes =>
    show ((fireNotification now codeId codeStr type thresholdMinutes st).1).firedNotifications.contains k = true
    rw [fireNotification_fst]
    show (if st.firedNotifications.contains (createFiredKey codeId type thresholdMinutes)
        then st.firedNotifications
        else createFiredKey codeId type thresholdMinutes :: st.firedNotifications).contains k
          = true
    by_cases hc : st.firedNotifications.contains
        (createFiredKey codeId type thresholdMinutes) = true
    · rw [if_pos hc]
      exact hk
    · rw [if_neg hc, List.contains_cons, hk]
      simp

/-- C10: in every reachable scheduler state the live timer keys are disjoint
from the fired-set; a firing timer records its key as fired unconditionally
— before the status re-check, so even a suppressed notification marks its
key; and the fired-set never loses an entry under any operation other than
the explicit reset, so a fired key is never re-armed by any later scheduling
pass. -/
theorem scheduler_fired_invariant_spec :
    (∀ st, ReachableState st → ∀ k ∈ liveKeys st,
      st.firedNotifications.contains k = false) ∧
    (∀ (now : Int) (codeId codeStr : String) (type : NotificationType)
        (thresholdMinutes : Nat) (st : SchedulerState),
      ((fireNotification now codeId codeStr type thresholdMinutes st).1).firedNotifications.contains
        (createFiredKey codeId type thresholdMinutes) = true) ∧
    (∀ (now : Int) (st : SchedulerState) (op : SchedulerOp),
      op ≠ SchedulerOp.opReset → ∀ k, st.firedNotifications.contains k = true →
      (applyOp now st op).firedNotifications.contains k = true) := by
  refine ⟨reachable_firedClean, ?_, applyOp_fired_mono⟩
  intro now codeId codeStr type thresholdMinutes st
  rw [fireNotification_fst]
  show (if st.firedNotifications.contains (createFiredKey codeId type thresholdMinutes)
      then st.firedNotifications
      else createFiredKey codeId type thresholdMinutes :: st.firedNotifications).contains
        (createFiredKey codeId type thresholdMinutes) = true
  by_cases hc : st.firedNotifications.contains
      (createFiredKey codeId type thresholdMinutes) = true
  · rw [if_pos hc]
    exact hc
  · rw [if_neg hc, List.contains_cons]
    simp

/-- Witness for C10: a start operation from the initial state arms one timer
whose key is not fired; firing marks a concrete key fired even though the
state knows no such code (the notification is suppressed); and a reschedule
keeps a concrete fired key. -/
theorem scheduler_fired_invariant_spec_witness :
    (ReachableState (applyOp 0 initialSchedulerState
        (SchedulerOp.opStart [⟨"c1", 1, "X", 10, 45, some 0, some 2700000⟩] ⟨[30], []⟩)) ∧
      createFiredKey "c1" .expiry 30 ∈ liveKeys (applyOp 0 initialSchedulerState
        (SchedulerOp.opStart [⟨"c1", 1, "X", 10, 45, some 0, some 2700000⟩] ⟨[30], []⟩)) ∧
      (applyOp 0 initialSchedulerState
          (SchedulerOp.opStart [⟨"c1", 1, "X", 10, 45, some 0, some 2700000⟩]
            ⟨[30], []⟩)).firedNotifications.contains
        (createFiredKey "c1" .expiry 30) = false) ∧
    ((fireNotification 0 "c9" "X" .expiry 30 initialSchedulerState).1.firedNotifications.contains
      (createFiredKey "c9" .expiry 30) = true) ∧
    (SchedulerOp.opReschedule ≠ SchedulerOp.opReset ∧
      (applyOp 0 ⟨[], ["k0"], none, []⟩
        SchedulerOp.opReschedule).firedNotifications.contains "k0" = true) := by
  refine ⟨⟨ReachableState.step _ 0 _ ReachableState.init, by decide, ?_⟩, ?_, ?_, ?_⟩
  · exact scheduler_fired_invariant_spec.1 _
      (ReachableState.step _ 0 _ ReachableState.init) _ (by decide)
  · exact scheduler_fired_invariant_spec.2.1 0 "c9" "X" .expiry 30 initialSchedulerState
  · decide
  · exact scheduler_fired_invariant_spec.2.2 0 ⟨[], ["k0"], none, []⟩
      SchedulerOp.opReschedule (by decide) "k0" (by decide)

end Povo

namespace Povo

/-- An already present map entry survives `scheduleNotification`. -/
theorem scheduleNotification_lookup_stable (now : Int) (st : SchedulerState)
    (p : ScheduleParams) (κ : String) (v : ScheduledNotification)
    (h : st.scheduledNotifications.lookup κ = some v) :
    (scheduleNotification now st p).scheduledNotifications.lookup κ = some v := by
  unfold scheduleNotification
  by_cases h1 : (st.scheduledNotifications.lookup
      (notificationId p.codeId p.type p.thresholdMinutes)).isSome
  · rw [if_pos h1]
    exact h
  · by_cases h2 : p.notifyAt - now > MAX_TIMEOUT
    · rw [if_neg h1, if_pos h2]
      exact h
    · rw [if_neg h1, if_neg h2]
      show ((notificationId p.codeId p.type p.thresholdMinutes, _) ::
        st.scheduledNotifications).lookup κ = some v
      rw [List.lookup_cons]
      have hne : κ ≠ notificationId p.codeId p.type p.thresholdMinutes := by
        intro heq
        rw [← heq] at h1
        exact h1 (by rw [h]; rfl)
      rw [show (κ == notificationId p.codeId p.type p.thresholdMinutes) = false from
        beq_eq_false_iff_ne.mpr hne]
      exact h

/-- A key different from the armed one stays absent. -/
theorem scheduleNotification_lookup_none (now : Int) (st : SchedulerState)
    (p : ScheduleParams) (κ : String)
    (hne : κ ≠ notificationId p.codeId p.type p.thresholdMinutes)
    (h : st.scheduledNotifications.lookup κ = none) :
    (scheduleNotification now st p).scheduledNotifications.lookup κ = none := by
  unfold scheduleNotification
  by_cases h1 : (st.scheduledNotifications.lookup
      (notificationId p.codeId p.type p.thresholdMinutes)).isSome
  · rw [if_pos h1]
    exact h
  · by_cases h2 : p.notifyAt - now > MAX_TIMEOUT
    · rw [if_neg h1, if_pos h2]
      exact h
    · rw [if_neg h1, if_neg h2]
      show ((notificationId p.codeId p.type p.thresholdMinutes, _) ::
        st.scheduledNotifications).lookup κ = none
      rw [List.lookup_cons]
      rw [show (κ == notificationId p.codeId p.type p.thresholdMinutes) = false from
        beq_eq_false_iff_ne.mpr hne]
      exact h

theorem expiryStep_lookup_stable (code : PromoCode) (now e : Int) (acc : SchedulerState)
    (t : Nat) (κ : String) (v : ScheduledNotification)
    (h : acc.scheduledNotifications.lookup κ = some v) :
    (expiryStep code now e acc t).scheduledNotifications.lookup κ = some v := by
  unfold expiryStep
  split_ifs
  · exact h
  · exact h
  · exact scheduleNotification_lookup_stable now acc _ κ v h

theorem expiryStep_lookup_none (code : PromoCode) (now e : Int) (acc : SchedulerState)
    (t : Nat) (κ : String)
    (hne : κ ≠ createFiredKey code.id .expiry t)
    (h : acc.scheduledNotifications.lookup κ = none) :
    (expiryStep code now e acc t).scheduledNotifications.lookup κ = none := by
  unfold expiryStep
  split_ifs
  · exact h
  · exact h
  · exact scheduleNotification_lookup_none now acc _ κ
      (by rw [notificationId_eq_createFiredKey]; exact hne) h

/-- When a threshold's fire time is past or its key is fired, its loop body
does nothing. -/
theorem expiryStep_skip_self (code : PromoCode) (now e : Int) (acc : SchedulerState)
    (t : Nat)
    (h : e - (t : Int) * 60 * 1000 ≤ now ∨
      acc.firedNotifications.contains (createFiredKey code.id .expiry t) = true) :
    expiryStep code now e acc t = acc := by
  unfold expiryStep
  rcases h with h | h
  · rw [if_pos h]
  · by_cases h1 : e - (t : Int) * 60 * 1000 ≤ now
    · rw [if_pos h1]
    · rw [if_neg h1, if_pos h]

/-- When the threshold is eligible (future fire time, not fired, within the
horizon) and its key is absent, its loop body arms exactly the expected
entry. -/
theorem expiryStep_arms (code : PromoCode) (now e : Int) (acc : SchedulerState) (t : Nat)
    (hcond : now < e - (t : Int) * 60 * 1000)
    (hfired : acc.firedNotifications.contains (createFiredKey code.id .expiry t) = false)
    (hhor : e - (t : Int) * 60 * 1000 - now ≤ MAX_TIMEOUT)
    (hnone : acc.scheduledNotifications.lookup (createFiredKey code.id .expiry t) = none) :
    (expiryStep code now e acc t).scheduledNotifications.lookup
        (createFiredKey code.id .expiry t) =
      some ⟨createFiredKey code.id .expiry t, e - (t : Int) * 60 * 1000,
        .expiry, code.id, t⟩ := by
  unfold expiryStep
  rw [if_neg (not_le.mpr hcond), if_neg (by rw [hfired]; exact Bool.false_ne_true)]
  unfold scheduleNotification
  rw [if_neg (by
    show ¬ (acc.scheduledNotifications.lookup (notificationId code.id .expiry t)).isSome
    rw [notificationId_eq_createFiredKey, hnone]
    exact Bool.false_ne_true)]
  rw [if_neg (by simpa using not_lt.mpr hhor)]
  show ((notificationId code.id .expiry t, _) ::
      acc.scheduledNotifications).lookup (createFiredKey code.id .expiry t) = _
  rw [List.lookup_cons]
  rw [show (createFiredKey code.id .expiry t == notificationId code.id .expiry t) = true from
    beq_iff_eq.mpr (notificationId_eq_createFiredKey code.id .expiry t).symm]
  rfl

/-- The arming fact propagated through the whole threshold loop. -/
theorem expiryFold_arms (code : PromoCode) (now e : Int) (t : Nat)
    (hcond : now < e - (t : Int) * 60 * 1000)
    (hhor : e - (t : Int) * 60 * 1000 - now ≤ MAX_TIMEOUT) :
    ∀ (l : List Nat) (acc : SchedulerState),
      acc.firedNotifications.contains (createFiredKey code.id .expiry t) = false →
      (∀ t2 ∈ l, createFiredKey code.id .expiry t2 = createFiredKey code.id .expiry t →
        t2 = t) →
      ((t ∈ l ∧ acc.scheduledNotifications.lookup (createFiredKey code.id .expiry t)
          = none) ∨
        acc.scheduledNotifications.lookup (createFiredKey code.id .expiry t) =
          some ⟨createFiredKey code.id .expiry t, e - (t : Int) * 60 * 1000,
            .expiry, code.id, t⟩) →
      (l.foldl (expiryStep code now e) acc).scheduledNotifications.lookup
          (createFiredKey code.id .expiry t) =
        some ⟨createFiredKey code.id .expiry t, e - (t : Int) * 60 * 1000,
          .expiry, code.id, t⟩ := by
  intro l
  induction l with
  | nil =>
    intro acc hfired hdist hstart
    rcases hstart with ⟨hmem, _⟩ | hsome
    · exact absurd hmem (List.not_mem_nil t)
    · exact hsome
  | cons hd tl ih =>
    intro acc hfired hdist hstart
    rw [List.foldl_cons]
    have hfired' : (expiryStep code now e acc hd).firedNotifications.contains
        (createFiredKey code.id .expiry t) = false := by
      rw [(expiryStep_proj code now e acc hd).1]
      exact hfired
    have hdist' : ∀ t2 ∈ tl, createFiredKey code.id .expiry t2 =
        createFiredKey code.id .expiry t → t2 = t :=
      fun t2 ht2 => hdist t2 (List.mem_cons_of_mem _ ht2)
    rcases hstart with ⟨hmem, hnone⟩ | hsome
    · by_cases hht : hd = t
      · subst hht
        refine ih _ hfired' hdist' (Or.inr ?_)
        exact expiryStep_arms code now e acc hd hcond hfired hhor hnone
      · rcases List.mem_cons.mp hmem with h | h
        · exact absurd h.symm hht
        · refine ih _ hfired' hdist' (Or.inl ⟨h, ?_⟩)
          refine expiryStep_lookup_none code now e acc hd _ ?_ hnone
          intro heq
          exact hht (hdist hd (List.mem_cons_self _ _) heq.symm)
    · refine ih _ hfired' hdist' (Or.inr ?_)
      exact expiryStep_lookup_stable code now e acc hd _ _ hsome

/-- The skipping fact propagated through the whole threshold loop. -/
theorem expiryFold_skips (code : PromoCode) (now e : Int) (t : Nat) :
    ∀ (l : List Nat) (acc : SchedulerState),
      (e - (t : Int) * 60 * 1000 ≤ now ∨
        acc.firedNotifications.contains (createFiredKey code.id .expiry t) = true) →
      (∀ t2 ∈ l, createFiredKey code.id .expiry t2 = createFiredKey code.id .expiry t →
        t2 = t) →
      acc.scheduledNotifications.lookup (createFiredKey code.id .expiry t) = none →
      (l.foldl (expiryStep code now e) acc).scheduledNotifications.lookup
        (createFiredKey code.id .expiry t) = none := by
  intro l
  induction l with
  | nil => intro acc _ _ hnone; exact hnone
  | cons hd tl ih =>
    intro acc hskip hdist hnone
    rw [List.foldl_cons]
    have hskip' : e - (t : Int) * 60 * 1000 ≤ now ∨
        (expiryStep code now e acc hd).firedNotifications.contains
          (createFiredKey code.id .expiry t) = true := by
      rcases hskip with h | h
      · exact Or.inl h
      · right
        rw [(expiryStep_proj code now e acc hd).1]
        exact h
    have hdist' : ∀ t2 ∈ tl, createFiredKey code.id .expiry t2 =
        createFiredKey code.id .expiry t → t2 = t :=
      fun t2 ht2 => hdist t2 (List.mem_cons_of_mem _ ht2)
    by_cases hht : hd = t
    · subst hht
      rw [expiryStep_skip_self code now e acc hd hskip]
      exact ih acc hskip hdist' hnone
    · refine ih _ hskip' hdist' ?_
      refine expiryStep_lookup_none code now e acc hd _ ?_ hnone
      intro heq
      exact hht (hdist hd (List.mem_cons_self _ _) heq.symm)

end Povo

namespace Povo

/-- C5 (amended): a scheduling pass over an empty timer map arms, for each
expiry threshold `t` of an active code, exactly one timer keyed
`(codeId, expiry, t)` with fire time `expiresAt - t` minutes — skipping any
threshold whose fire time is already in the past, any key present in the
fired-set, and (the amendment) any threshold whose delay from `now` exceeds
the platform's maximal single-shot timer delay. -/
theorem schedule_expiry_thresholds_spec (code : PromoCode) (now e : Int)
    (st : SchedulerState) (s : NotificationSettings)
    (hsched : st.scheduledNotifications = [])
    (hset : st.settings = some s)
    (hexp : code.expiresAt = some e)
    (hkeys : ∀ t1 ∈ s.expiryThresholdsMinutes, ∀ t2 ∈ s.expiryThresholdsMinutes,
      createFiredKey code.id .expiry t1 = createFiredKey code.id .expiry t2 → t1 = t2) :
    ∀ t ∈ s.expiryThresholdsMinutes,
      ((now < e - (t : Int) * 60 * 1000 ∧
        st.firedNotifications.contains (createFiredKey code.id .expiry t) = false ∧
        e - (t : Int) * 60 * 1000 - now ≤ MAX_TIMEOUT) →
        (scheduleExpiryNotifications code now st).scheduledNotifications.lookup
            (createFiredKey code.id .expiry t) =
          some ⟨createFiredKey code.id .expiry t, e - (t : Int) * 60 * 1000,
            .expiry, code.id, t⟩) ∧
      ((e - (t : Int) * 60 * 1000 ≤ now ∨
        st.firedNotifications.contains (createFiredKey code.id .expiry t) = true) →
        (scheduleExpiryNotifications code now st).scheduledNotifications.lookup
            (createFiredKey code.id .expiry t) = none) := by
  intro t ht
  have hred : scheduleExpiryNotifications code now st =
      s.expiryThresholdsMinutes.foldl (expiryStep code now e) st := by
    unfold scheduleExpiryNotifications
    rw [hset, hexp]
  constructor
  · intro ⟨h1, h2, h3⟩
    rw [hred]
    exact expiryFold_arms code now e t h1 h3 _ st h2
      (fun t2 ht2 => hkeys t2 ht2 t ht) (Or.inl ⟨ht, by rw [hsched]; rfl⟩)
  · intro hskip
    rw [hred]
    exact expiryFold_skips code now e t _ st hskip
      (fun t2 ht2 => hkeys t2 ht2 t ht) (by rw [hsched]; rfl)

/-- Counterexample to C5 as stated: threshold 30 of an active code whose
expiry lies 1 ms beyond `MAX_TIMEOUT + 30 min` has a fire time strictly in
the future and a key not in the (empty) fired-set, yet the scheduling pass
arms no timer at all — the delay exceeds the timer horizon. -/
theorem schedule_expiry_thresholds_counterexample :
    (30 : Nat) ∈ ([30] : List Nat) ∧
    (0 : Int) < 2149283648 - (30 : Int) * 60 * 1000 ∧
    (([] : List String).contains (createFiredKey "c1" .expiry 30)) = false ∧
    (scheduleExpiryNotifications ⟨"c1", 1, "X", 10, 35821, some 0, some 2149283648⟩ 0
        ⟨[], [], some ⟨[30], []⟩,
          [⟨"c1", 1, "X", 10, 35821, some 0, some 2149283648⟩]⟩).scheduledNotifications
      = [] := by decide

/-- Witness for the amended C5 at the spec's scenario 5: an active code
expiring in 45 minutes with thresholds `[1440, 180, 60, 30]` arms exactly
one timer — the 30-minute one, firing at `expiresAt - 30` minutes — while
the 60-minute threshold (fire time already past) is skipped. -/
theorem schedule_expiry_thresholds_spec_witness :
    (scheduleExpiryNotifications ⟨"c1", 1, "X", 10, 45, some 0, some 2700000⟩ 0
        ⟨[], [], some ⟨[1440, 180, 60, 30], []⟩,
          [⟨"c1", 1, "X", 10, 45, some 0, some 2700000⟩]⟩).scheduledNotifications.lookup
        (createFiredKey "c1" .expiry 30) =
      some ⟨createFiredKey "c1" .expiry 30, 2700000 - (30 : Int) * 60 * 1000,
        .expiry, "c1", 30⟩ ∧
    (scheduleExpiryNotifications ⟨"c1", 1, "X", 10, 45, some 0, some 2700000⟩ 0
        ⟨[], [], some ⟨[1440, 180, 60, 30], []⟩,
          [⟨"c1", 1, "X", 10, 45, some 0, some 2700000⟩]⟩).scheduledNotifications.lookup
        (createFiredKey "c1" .expiry 60) = none ∧
    (scheduleExpiryNotifications ⟨"c1", 1, "X", 10, 45, some 0, some 2700000⟩ 0
        ⟨[], [], some ⟨[1440, 180, 60, 30], []⟩,
          [⟨"c1", 1, "X", 10, 45, some 0, some 2700000⟩]⟩).scheduledNotifications.length
      = 1 := by
  refine ⟨?_, ?_, by decide⟩
  · exact (schedule_expiry_thresholds_spec
      ⟨"c1", 1, "X", 10, 45, some 0, some 2700000⟩ 0 2700000
      ⟨[], [], some ⟨[1440, 180, 60, 30], []⟩,
        [⟨"c1", 1, "X", 10, 45, some 0, some 2700000⟩]⟩
      ⟨[1440, 180, 60, 30], []⟩ rfl rfl rfl (by decide) 30 (by decide)).1 (by decide)
  · exact (schedule_expiry_thresholds_spec
      ⟨"c1", 1, "X", 10, 45, some 0, some 2700000⟩ 0 2700000
      ⟨[], [], some ⟨[1440, 180, 60, 30], []⟩,
        [⟨"c1", 1, "X", 10, 45, some 0, some 2700000⟩]⟩
      ⟨[1440, 180, 60, 30], []⟩ rfl rfl rfl (by decide) 60 (by decide)).2 (by decide)

end Povo
